import Mathlib

/-!
Verification development for the `discrete_regex` repository (src/laba.py).

The Python program compiles a restricted regex pattern (ASCII literals, `.`
wildcard, postfix `*` and `+`) into a graph of state objects
(`RegexFSM.__init__`) and matches input strings against it with a FIFO
worklist simulation (`RegexFSM.check_string`).

Shallow embedding: Python state objects live in an arena (`List StateData`)
and object references become arena indices, so Python object identity
(`in`, `!=` on states) becomes index equality.  Index 0 is the
`StartState`, index 1 the `TerminationState`; every further state created
by the compiler is appended at the end, exactly in creation order.
Mutations of `next_states` lists during compilation become functional
updates of the arena.  The two `ValueError`s of the source are the two
constructors of `CompileError`.
-/

set_option maxRecDepth 4000

/-- Variant tag of a state object: mirrors the six `State` subclasses of
laba.py.  `starState`/`plusState` store the arena index of the wrapped
`checking_state`. -/
inductive StateKind where
  | startState
  | terminationState
  | dotState
  | asciiState (symbol : Char)
  | starState (checking : Nat)
  | plusState (checking : Nat)
deriving DecidableEq

/-- One state object: its variant tag and its `next_states` list
(arena indices). -/
structure StateData where
  kind : StateKind
  next_states : List Nat
deriving DecidableEq

/-- The compiled automaton: the arena of all created states.
Index 0 is `start_state`, index 1 is `terminal_state`. -/
abbrev RegexFSM := List StateData

/-- Arena lookup; out-of-range indices never occur in compiled automatons,
the default is inert (termination kind, no edges). -/
def stateAt (a : RegexFSM) (i : Nat) : StateData :=
  a.getD i ⟨.terminationState, []⟩

def kindAt (a : RegexFSM) (i : Nat) : StateKind := (stateAt a i).kind

def nextAt (a : RegexFSM) (i : Nat) : List Nat := (stateAt a i).next_states

/-- Python's `isinstance(s, StarState)`. -/
def is_star : StateKind → Bool
  | .starState _ => true
  | _ => false

/-- `DotState` or `AsciiState`: an ordinary atom state. -/
def is_atom : StateKind → Bool
  | .dotState => true
  | .asciiState _ => true
  | _ => false

/-- `State.check_self`, fuel-indexed: `StarState`/`PlusState` delegate to
their wrapped state (laba.py lines 130-160).  In every compiled automaton a
quantifier wraps an earlier-created state, so the wrapping chain strictly
descends and fuel `i+1` is always enough for state `i`. -/
def check_self_fuel (a : RegexFSM) : Nat → Nat → Char → Bool
  | 0, _, _ => false
  | fuel + 1, i, c =>
    match kindAt a i with
    | .startState => true
    | .terminationState => false
    | .dotState => true
    | .asciiState s => c == s
    | .starState ch => check_self_fuel a fuel ch c
    | .plusState ch => check_self_fuel a fuel ch c

/-- `check_self` of the state at index `i`. -/
def check_self (a : RegexFSM) (i : Nat) (c : Char) : Bool :=
  check_self_fuel a (i + 1) i c

/-- The two `ValueError`s raised by `RegexFSM.__init__` /
`RegexFSM.__init_next_state`. -/
inductive CompileError where
  | leadingQuantifier (c : Char)
  | unsupportedToken (c : Char)
deriving DecidableEq

/-- Compiler state while scanning the pattern: the arena built so far plus
the `tmp_next_state` reference (`none` = Python `None`). -/
structure CompSt where
  arena : RegexFSM
  tmp_next_state : Option Nat
deriving DecidableEq

/-- Replace the `next_states` list of the state at index `i` by `f` of it
(models in-place mutation of one state object). -/
def upd_next (a : RegexFSM) (i : Nat) (f : List Nat → List Nat) : RegexFSM :=
  a.set i ⟨kindAt a i, f (nextAt a i)⟩

/-- Python `lst[-1] = v`.  At its use site the list (start's `next_states`)
is nonempty, since `tmp_next_state` is set only after a first atom was
appended there. -/
def set_last (l : List Nat) (v : Nat) : List Nat :=
  l.dropLast ++ [v]

/-- Python `str.isascii()` on a single character: code point below 128. -/
def isascii (c : Char) : Bool := c.toNat < 128

/-- `RegexFSM.__init_next_state` (laba.py lines 223-232). -/
def init_next_state (token : Char) : Except CompileError StateKind :=
  if token = '.' then .ok .dotState
  else if isascii token then .ok (.asciiState token)
  else .error (.unsupportedToken token)

/-- One iteration of the compile loop of `RegexFSM.__init__` (lines
183-216).  `prev_state` is the start state throughout the Python loop (it
is initialised at line 179 and never reassigned), so the quantifier
branches rewrite the last edge of state 0. -/
def compile_step (st : CompSt) (c : Char) : Except CompileError CompSt :=
  if c = '*' then
    match st.tmp_next_state with
    | none => .error (.leadingQuantifier '*')
    | some t =>
      let n := st.arena.length
      .ok ⟨upd_next st.arena 0 (fun l => set_last l n) ++ [⟨.starState t, [t, n]⟩],
           some n⟩
  else if c = '+' then
    match st.tmp_next_state with
    | none => .error (.leadingQuantifier '+')
    | some t =>
      let n := st.arena.length
      .ok ⟨upd_next (upd_next st.arena 0 (fun l => set_last l n)) t (fun l => l ++ [t]) ++
             [⟨.plusState t, [t]⟩],
           some t⟩
  else
    match init_next_state c with
    | .error e => .error e
    | .ok k =>
      let n := st.arena.length
      match st.tmp_next_state with
      | some t => .ok ⟨upd_next st.arena t (fun l => l ++ [n]) ++ [⟨k, []⟩], some n⟩
      | none => .ok ⟨upd_next st.arena 0 (fun l => l ++ [n]) ++ [⟨k, []⟩], some n⟩

/-- The whole compile loop. -/
def compile_loop (st : CompSt) : List Char → Except CompileError CompSt
  | [] => .ok st
  | c :: cs =>
    match compile_step st c with
    | .error e => .error e
    | .ok st' => compile_loop st' cs

/-- Compiler state before the loop: fresh start and terminal states,
`tmp_next_state = None`. -/
def init_comp_st : CompSt :=
  ⟨[⟨.startState, []⟩, ⟨.terminationState, []⟩], none⟩

/-- After the loop (lines 218-221): link the terminal state after the
chain's tail. -/
def finalize (st : CompSt) : RegexFSM :=
  match st.tmp_next_state with
  | some t => upd_next st.arena t (fun l => l ++ [1])
  | none => upd_next st.arena 0 (fun l => l ++ [1])

/-- `RegexFSM.__init__`: compile a pattern to an automaton or raise. -/
def compile (p : List Char) : Except CompileError RegexFSM :=
  match compile_loop init_comp_st p with
  | .error e => .error e
  | .ok st => .ok (finalize st)

/-- Epsilon expansion of a `StarState` successor (lines 260-263): every
successor of the star other than the star itself, at the same position. -/
def eps_targets (a : RegexFSM) (n : Nat) (pos : Nat) : List (Nat × Nat) :=
  ((nextAt a n).filter (fun m => m ≠ n)).map (fun m => (m, pos))

/-- Helper: concatenation of `f` over a list (Python nested `for` with
`append`s). -/
def concat_map (f : Nat → List (Nat × Nat)) : List Nat → List (Nat × Nat)
  | [] => []
  | n :: ns => f n ++ concat_map f ns

/-- The pairs appended to the worklist when processing `(st, pos)` with
current character `c` (lines 256-263): for each successor, the consuming
move if its `check_self` accepts, then the epsilon moves if it is a
`StarState`. -/
def step_adds (a : RegexFSM) (c : Char) (st pos : Nat) : List (Nat × Nat) :=
  concat_map
    (fun n =>
      (if check_self a n c then [(n, pos + 1)] else []) ++
      (if is_star (kindAt a n) then eps_targets a n pos else []))
    (nextAt a st)

/-- Acceptance test when the input is exhausted (lines 244-251): terminal
is a direct successor, or some successor is a `StarState` having terminal
among its own successors. -/
def at_end_accept (a : RegexFSM) (st : Nat) : Bool :=
  (nextAt a st).contains 1 ||
  (nextAt a st).any (fun n => is_star (kindAt a n) && (nextAt a n).contains 1)

/-- The worklist loop of `RegexFSM.check_string` (lines 241-265),
fuel-indexed: `none` means the fuel ran out before the loop finished.
FIFO order: pop at the front, append at the back. -/
def check_string_fuel (a : RegexFSM) (s : List Char) :
    List (Nat × Nat) → Nat → Option Bool
  | [], _ => some false
  | _ :: _, 0 => none
  | (st, pos) :: rest, fuel + 1 =>
    if pos = s.length then
      if at_end_accept a st then some true
      else check_string_fuel a s rest fuel
    else
      check_string_fuel a s (rest ++ step_adds a (s.getD pos ' ') st pos) fuel

/-- `RegexFSM.check_string` returns `b` on input `s`: the worklist loop,
started from `(start, 0)`, finishes with result `b` (for some — hence, by
`check_string_fuel_mono`, every larger — fuel). -/
def check_string (a : RegexFSM) (s : List Char) (b : Bool) : Prop :=
  ∃ n, check_string_fuel a s [(0, 0)] n = some b

/-- Once the loop finishes, more fuel does not change the result. -/
theorem check_string_fuel_mono (a : RegexFSM) (s : List Char) :
    ∀ n m wl b, check_string_fuel a s wl n = some b → n ≤ m →
      check_string_fuel a s wl m = some b := by
  intro n
  induction n with
  | zero =>
    intro m wl b h _
    cases wl with
    | nil => simpa [check_string_fuel] using h
    | cons p rest => simp [check_string_fuel] at h
  | succ n ih =>
    intro m wl b h hnm
    cases wl with
    | nil => simpa [check_string_fuel] using h
    | cons p rest =>
      obtain ⟨st, pos⟩ := p
      obtain ⟨m', rfl⟩ : ∃ m', m = m' + 1 := ⟨m - 1, by omega⟩
      have hnm' : n ≤ m' := by omega
      simp only [check_string_fuel] at h ⊢
      by_cases hpos : pos = s.length
      · simp only [hpos, if_pos rfl] at h ⊢
        by_cases hacc : at_end_accept a st
        · simpa [hacc] using h
        · simp only [hacc, if_neg, Bool.false_eq_true, if_false] at h ⊢
          exact ih m' rest b h hnm'
      · simp only [if_neg hpos] at h ⊢
        exact ih m' _ b h hnm'

/-- The matcher's result is unique: `check_string` relates an input to at
most one boolean. -/
theorem check_string_unique (a : RegexFSM) (s : List Char) (b₁ b₂ : Bool)
    (h₁ : check_string a s b₁) (h₂ : check_string a s b₂) : b₁ = b₂ := by
  obtain ⟨n₁, e₁⟩ := h₁
  obtain ⟨n₂, e₂⟩ := h₂
  rcases le_total n₁ n₂ with h | h
  · have := check_string_fuel_mono a s n₁ n₂ _ _ e₁ h
    rw [this] at e₂
    exact Option.some.inj e₂
  · have := check_string_fuel_mono a s n₂ n₁ _ _ e₂ h
    rw [this] at e₁
    exact (Option.some.inj e₁).symm

/-- Reachability along `next_states` edges. -/
def Reachable (a : RegexFSM) (i j : Nat) : Prop :=
  Relation.ReflTransGen (fun x y => y ∈ nextAt a x) i j

/-! ## Concrete compiled automatons used by the claims -/

/-- Result of compiling the pattern `a*`. -/
def fsm_a_star : RegexFSM :=
  [⟨.startState, [3]⟩, ⟨.terminationState, []⟩, ⟨.asciiState 'a', []⟩,
   ⟨.starState 2, [2, 3, 1]⟩]

/-- Result of compiling the pattern `a+`. -/
def fsm_a_plus : RegexFSM :=
  [⟨.startState, [3]⟩, ⟨.terminationState, []⟩, ⟨.asciiState 'a', [2, 1]⟩,
   ⟨.plusState 2, [2]⟩]

/-- Result of compiling the pattern `ab*c`. -/
def fsm_ab_star_c : RegexFSM :=
  [⟨.startState, [4]⟩, ⟨.terminationState, []⟩, ⟨.asciiState 'a', [3]⟩,
   ⟨.asciiState 'b', []⟩, ⟨.starState 3, [3, 4, 5]⟩, ⟨.asciiState 'c', [1]⟩]

/-- Result of compiling the pattern `ab*`. -/
def fsm_ab_star : RegexFSM :=
  [⟨.startState, [4]⟩, ⟨.terminationState, []⟩, ⟨.asciiState 'a', [3]⟩,
   ⟨.asciiState 'b', []⟩, ⟨.starState 3, [3, 4, 1]⟩]

/-- Result of compiling the sample pattern `a*4.+hi` of the demo driver. -/
def fsm_sample : RegexFSM :=
  [⟨.startState, [6]⟩, ⟨.terminationState, []⟩, ⟨.asciiState 'a', []⟩,
   ⟨.starState 2, [2, 3, 4]⟩, ⟨.asciiState '4', [5]⟩, ⟨.dotState, [5, 7]⟩,
   ⟨.plusState 5, [5]⟩, ⟨.asciiState 'h', [8]⟩, ⟨.asciiState 'i', [1]⟩]

/-- Result of compiling the pattern `a+*`. -/
def fsm_a_plus_star : RegexFSM :=
  [⟨.startState, [4]⟩, ⟨.terminationState, []⟩, ⟨.asciiState 'a', [2]⟩,
   ⟨.plusState 2, [2]⟩, ⟨.starState 2, [2, 4, 1]⟩]

/-- Result of compiling the pattern `a**`. -/
def fsm_a_star_star : RegexFSM :=
  [⟨.startState, [4]⟩, ⟨.terminationState, []⟩, ⟨.asciiState 'a', []⟩,
   ⟨.starState 2, [2, 3]⟩, ⟨.starState 3, [3, 4, 1]⟩]

/-! ## Claims settled by concrete computation -/

/-- Claim C1 (code behavior at the failing inputs): for the automaton
compiled from `ab*c` the matcher rejects `ac`, `abc` and `abbbc` and
accepts `bc` — the opposite of the claim on those four inputs — because
the quantifier branch rewrites the last edge of the fixed `prev_state`
anchor (the start state), disconnecting the `a` state and re-anchoring the
starred `b` at the start.  (`ac d` and `xyz` are rejected, as the claim
says.) -/
theorem claim1_code_behavior :
    compile ['a', 'b', '*', 'c'] = .ok fsm_ab_star_c ∧
    check_string fsm_ab_star_c ['a', 'c'] false ∧
    check_string fsm_ab_star_c ['a', 'b', 'c'] false ∧
    check_string fsm_ab_star_c ['a', 'b', 'b', 'b', 'c'] false ∧
    check_string fsm_ab_star_c ['b', 'c'] true ∧
    check_string fsm_ab_star_c ['a', 'c', ' ', 'd'] false ∧
    check_string fsm_ab_star_c ['x', 'y', 'z'] false :=
  ⟨rfl, ⟨100, by decide⟩, ⟨100, by decide⟩, ⟨100, by decide⟩, ⟨100, by decide⟩,
   ⟨100, by decide⟩, ⟨100, by decide⟩⟩

/-- Claim C2 (code behavior): for the automaton compiled from `a+` the
matcher rejects the empty string and `b` and accepts `aaa` as the claim
says, but it also rejects `a`: the `+` branch never updates
`tmp_next_state` to the new `PlusState`, so the terminal edge is attached
to the `a` atom and an accepting path needs at least two characters. -/
theorem claim2_code_behavior :
    compile ['a', '+'] = .ok fsm_a_plus ∧
    check_string fsm_a_plus [] false ∧
    check_string fsm_a_plus ['a'] false ∧
    check_string fsm_a_plus ['a', 'a', 'a'] true ∧
    check_string fsm_a_plus ['b'] false :=
  ⟨rfl, ⟨10, by decide⟩, ⟨10, by decide⟩, ⟨20, by decide⟩, ⟨10, by decide⟩⟩

/-- Claim C3: for the sample pattern `a*4.+hi`, `check_string` accepts
`aaaaaa4uhi` and `4uhi` and rejects `meow`, exactly as the demo driver's
comments state. -/
theorem claim3_sample_pattern :
    compile ['a', '*', '4', '.', '+', 'h', 'i'] = .ok fsm_sample ∧
    check_string fsm_sample ['a', 'a', 'a', 'a', 'a', 'a', '4', 'u', 'h', 'i'] true ∧
    check_string fsm_sample ['4', 'u', 'h', 'i'] true ∧
    check_string fsm_sample ['m', 'e', 'o', 'w'] false :=
  ⟨rfl, ⟨400, by decide⟩, ⟨100, by decide⟩, ⟨100, by decide⟩⟩

/-- Claim C6: for the automaton compiled from `a*`, `check_string` accepts
the empty string, `a` and `aaaa`, and rejects `b`. -/
theorem claim6_zero_or_more :
    compile ['a', '*'] = .ok fsm_a_star ∧
    check_string fsm_a_star [] true ∧
    check_string fsm_a_star ['a'] true ∧
    check_string fsm_a_star ['a', 'a', 'a', 'a'] true ∧
    check_string fsm_a_star ['b'] false :=
  ⟨rfl, ⟨10, by decide⟩, ⟨10, by decide⟩, ⟨200, by decide⟩, ⟨10, by decide⟩⟩

/-- Claim C4 (code behavior at the failing input): compiling `ab*`
succeeds, yet the state created for the literal `a` (index 2, which is
neither start nor terminal) is unreachable from the start state: when the
`*` was processed, start's only edge — which pointed at the `a` state —
was overwritten with an edge to the new `StarState`. -/
theorem claim4_unreachable_state :
    compile ['a', 'b', '*'] = .ok fsm_ab_star ∧
    kindAt fsm_ab_star 2 = .asciiState 'a' ∧
    2 < fsm_ab_star.length ∧
    ¬ Reachable fsm_ab_star 0 2 := by
  refine ⟨rfl, rfl, by decide, ?_⟩
  intro h
  have key : ∀ j, Reachable fsm_ab_star 0 j → j ∈ ([0, 4, 3, 1] : List Nat) := by
    intro j hj
    induction hj with
    | refl => decide
    | @tail b c hb hstep ih =>
      have hb4 : b = 0 ∨ b = 4 ∨ b = 3 ∨ b = 1 := by simpa using ih
      rcases hb4 with rfl | rfl | rfl | rfl
      · have hc : c = 4 := by simpa [nextAt, stateAt, fsm_ab_star] using hstep
        subst hc; decide
      · have hc : c = 3 ∨ c = 4 ∨ c = 1 := by
          simpa [nextAt, stateAt, fsm_ab_star] using hstep
        rcases hc with rfl | rfl | rfl <;> decide
      · exact absurd hstep (by simp [nextAt, stateAt, fsm_ab_star])
      · exact absurd hstep (by simp [nextAt, stateAt, fsm_ab_star])
  have := key 2 h
  simp at this

/-! ## Error behavior of the compiler -/

/-- Every successful compile step leaves `tmp_next_state` set. -/
theorem compile_step_ok_tmp (st : CompSt) (c : Char) (st' : CompSt)
    (h : compile_step st c = .ok st') : ∃ t, st'.tmp_next_state = some t := by
  unfold compile_step at h
  split at h
  · cases htmp : st.tmp_next_state with
    | none => rw [htmp] at h; exact absurd h (by simp)
    | some t => rw [htmp] at h; exact ⟨_, by simpa using congrArg CompSt.tmp_next_state (Except.ok.inj h).symm⟩
  · split at h
    · cases htmp : st.tmp_next_state with
      | none => rw [htmp] at h; exact absurd h (by simp)
      | some t => rw [htmp] at h; exact ⟨_, by simpa using congrArg CompSt.tmp_next_state (Except.ok.inj h).symm⟩
    · split at h
      · exact absurd h (by simp)
      · cases htmp : st.tmp_next_state with
        | some t => rw [htmp] at h; exact ⟨_, by simpa using congrArg CompSt.tmp_next_state (Except.ok.inj h).symm⟩
        | none => rw [htmp] at h; exact ⟨_, by simpa using congrArg CompSt.tmp_next_state (Except.ok.inj h).symm⟩

/-- A failing compile step fails either with a leading-quantifier error
(the token is `*` or `+` and no atom precedes) or with an
unsupported-token error (the token is non-ASCII). -/
theorem compile_step_error_cases (st : CompSt) (c : Char) (e : CompileError)
    (h : compile_step st c = .error e) :
    (e = .leadingQuantifier c ∧ (c = '*' ∨ c = '+') ∧ st.tmp_next_state = none) ∨
    (e = .unsupportedToken c ∧ c ≠ '.' ∧ isascii c = false) := by
  unfold compile_step at h
  split at h
  · rename_i hc
    cases htmp : st.tmp_next_state with
    | none =>
      rw [htmp] at h
      exact .inl ⟨by rw [hc]; exact (Except.error.inj h).symm, .inl hc, rfl⟩
    | some t => rw [htmp] at h; exact absurd h (by simp)
  · split at h
    · rename_i hc
      cases htmp : st.tmp_next_state with
      | none =>
        rw [htmp] at h
        exact .inl ⟨by rw [hc]; exact (Except.error.inj h).symm, .inr hc, rfl⟩
      | some t => rw [htmp] at h; exact absurd h (by simp)
    · split at h
      · rename_i e' hinit
        unfold init_next_state at hinit
        split at hinit
        · exact absurd hinit (by simp)
        · split at hinit
          · exact absurd hinit (by simp)
          · rename_i hdot hascii
            refine .inr ⟨?_, hdot, by simpa using hascii⟩
            exact ((Except.error.inj hinit).trans (Except.error.inj h)).symm
      · cases htmp : st.tmp_next_state with
        | some t => rw [htmp] at h; exact absurd h (by simp)
        | none => rw [htmp] at h; exact absurd h (by simp)

/-- A non-ASCII token makes the compile step fail with `UnsupportedToken`. -/
theorem compile_step_nonascii (st : CompSt) (c : Char)
    (h : isascii c = false) :
    compile_step st c = .error (.unsupportedToken c) := by
  have hstar : c ≠ '*' := by rintro rfl; simp [isascii] at h
  have hplus : c ≠ '+' := by rintro rfl; simp [isascii] at h
  have hdot : c ≠ '.' := by rintro rfl; simp [isascii] at h
  unfold compile_step
  rw [if_neg hstar, if_neg hplus]
  unfold init_next_state
  rw [if_neg hdot, if_neg (by simp [h])]

/-- Once an atom has been seen, the rest of the loop can never raise a
leading-quantifier error. -/
theorem compile_loop_no_leading (cs : List Char) :
    ∀ st : CompSt, st.tmp_next_state ≠ none →
      ∀ q, compile_loop st cs ≠ .error (.leadingQuantifier q) := by
  induction cs with
  | nil => intro st _ q h; simp [compile_loop] at h
  | cons c cs ih =>
    intro st htmp q h
    unfold compile_loop at h
    cases hstep : compile_step st c with
    | error e =>
      rw [hstep] at h
      have he := Except.error.inj h
      rcases compile_step_error_cases st c e hstep with ⟨_, _, hnone⟩ | ⟨hu, _, _⟩
      · exact htmp hnone
      · rw [hu] at he; exact absurd he (by simp)
    | ok st' =>
      rw [hstep] at h
      obtain ⟨t, ht⟩ := compile_step_ok_tmp st c st' hstep
      exact ih st' (by simp [ht]) q h

/-- If the pattern contains a non-ASCII character, the compile loop fails
(with some error: the leftmost offending token wins). -/
theorem compile_loop_nonascii (cs : List Char) :
    ∀ st : CompSt, (∃ c ∈ cs, isascii c = false) →
      ∃ e, compile_loop st cs = .error e := by
  induction cs with
  | nil => intro st h; simp at h
  | cons c cs ih =>
    intro st hex
    cases hstep : compile_step st c with
    | error e => exact ⟨e, by simp [compile_loop, hstep]⟩
    | ok st' =>
      have hc : isascii c = true := by
        by_contra hcf
        rw [compile_step_nonascii st c (by simpa using hcf)] at hstep
        exact absurd hstep (by simp)
      obtain ⟨d, hd, hdf⟩ := hex
      have hd' : d ∈ cs := by
        rcases List.mem_cons.1 hd with rfl | h
        · rw [hc] at hdf; exact absurd hdf (by simp)
        · exact h
      obtain ⟨e, he⟩ := ih st' ⟨d, hd', hdf⟩
      exact ⟨e, by simp [compile_loop, hstep, he]⟩

/-- An `UnsupportedToken` error always names a non-ASCII character of the
scanned text. -/
theorem compile_loop_unsupported (cs : List Char) :
    ∀ (st : CompSt) (d : Char),
      compile_loop st cs = .error (.unsupportedToken d) →
      d ∈ cs ∧ isascii d = false := by
  induction cs with
  | nil => intro st d h; simp [compile_loop] at h
  | cons c cs ih =>
    intro st d h
    unfold compile_loop at h
    cases hstep : compile_step st c with
    | error e =>
      rw [hstep] at h
      have he := Except.error.inj h
      rcases compile_step_error_cases st c e hstep with ⟨hl, _, _⟩ | ⟨hu, _, hna⟩
      · rw [hl] at he; exact absurd he (by simp)
      · rw [hu] at he
        have : c = d := by simpa using he
        subst this
        exact ⟨List.mem_cons_self _ _, hna⟩
    | ok st' =>
      rw [hstep] at h
      obtain ⟨hd, hna⟩ := ih st' d h
      exact ⟨List.mem_cons_of_mem _ hd, hna⟩

/-- `compile` errors exactly when its loop errors (`finalize` is total). -/
theorem compile_error_iff (p : List Char) (e : CompileError) :
    compile p = .error e ↔ compile_loop init_comp_st p = .error e := by
  unfold compile
  cases h : compile_loop init_comp_st p with
  | error e' => simp
  | ok st => simp

/-- Claim C8 counterexample: the pattern `a+*` compiles without error, and
the new `StarState` (index 4) wraps the literal `a` atom (index 2), not
the previous quantifier state (the `PlusState` at index 3): the `+` branch
does not update `tmp_next_state`, so the claim's clause "the new Repeat
wrapping the previous one" is false here. -/
theorem claim8_counterexample :
    compile ['a', '+', '*'] = .ok fsm_a_plus_star ∧
    kindAt fsm_a_plus_star 4 = .starState 2 ∧
    kindAt fsm_a_plus_star 3 = .plusState 2 ∧
    kindAt fsm_a_plus_star 2 = .asciiState 'a' :=
  ⟨rfl, rfl, rfl, rfl⟩

/-- Claim C8 as amended: compilation fails with `LeadingQuantifier` exactly
when the pattern starts with `*` or `+` (equivalently: a quantifier occurs
before any atom has been compiled); a quantifier immediately following
another quantifier with a preceding atom is accepted without error, and
the new Repeat wraps the previous Repeat when that one is a `StarState`
(`a**`), but wraps the original atom when the previous quantifier is a
`PlusState` (`a+*`). -/
theorem claim8_amended :
    (∀ (p : List Char) (q : Char),
        compile p = .error (.leadingQuantifier q) ↔
          ((q = '*' ∨ q = '+') ∧ ∃ cs, p = q :: cs)) ∧
    (compile ['a', '*', '*'] = .ok fsm_a_star_star ∧
      kindAt fsm_a_star_star 4 = .starState 3 ∧
      kindAt fsm_a_star_star 3 = .starState 2) ∧
    (compile ['a', '+', '*'] = .ok fsm_a_plus_star ∧
      kindAt fsm_a_plus_star 4 = .starState 2 ∧
      kindAt fsm_a_plus_star 2 = .asciiState 'a') := by
  refine ⟨?_, ⟨rfl, rfl, rfl⟩, ⟨rfl, rfl, rfl⟩⟩
  intro p q
  constructor
  · intro h
    rw [compile_error_iff] at h
    cases p with
    | nil => simp [compile_loop] at h
    | cons c cs =>
      unfold compile_loop at h
      cases hstep : compile_step init_comp_st c with
      | error e =>
        rw [hstep] at h
        have he := Except.error.inj h
        rcases compile_step_error_cases _ c e hstep with ⟨hl, hq, _⟩ | ⟨hu, _, _⟩
        · rw [hl] at he
          have : c = q := by simpa using he
          subst this
          exact ⟨hq, cs, rfl⟩
        · rw [hu] at he; exact absurd he (by simp)
      | ok st' =>
        rw [hstep] at h
        obtain ⟨t, ht⟩ := compile_step_ok_tmp _ c st' hstep
        exact absurd h (compile_loop_no_leading cs st' (by simp [ht]) q)
  · rintro ⟨hq, cs, rfl⟩
    rw [compile_error_iff]
    rcases hq with rfl | rfl <;>
      simp [compile_loop, compile_step, init_comp_st]

/-- Claim C9 counterexample: the pattern `*é` contains a character outside
the supported (ASCII) alphabet, yet compilation does not fail with
`UnsupportedToken`: the leading `*` is reported first, as
`LeadingQuantifier`. -/
theorem claim9_counterexample :
    isascii 'é' = false ∧
    compile ['*', 'é'] = .error (.leadingQuantifier '*') ∧
    ∀ d, compile ['*', 'é'] ≠ .error (.unsupportedToken d) := by
  refine ⟨by decide, rfl, ?_⟩
  intro d h
  have h0 : compile ['*', 'é'] = .error (.leadingQuantifier '*') := rfl
  rw [h0] at h
  simp at h

/-- Claim C9 as amended: whenever the pattern contains a non-ASCII
character, compilation fails (with `UnsupportedToken` unless a leading
quantifier earlier in the pattern raises `LeadingQuantifier` first), and
every `UnsupportedToken` error names a non-ASCII character of the
pattern. -/
theorem claim9_amended (p : List Char) (h : ∃ c ∈ p, isascii c = false) :
    (∃ e, compile p = .error e) ∧
    ∀ d, compile p = .error (.unsupportedToken d) → d ∈ p ∧ isascii d = false := by
  constructor
  · obtain ⟨e, he⟩ := compile_loop_nonascii p init_comp_st h
    exact ⟨e, (compile_error_iff p e).2 he⟩
  · intro d hd
    exact compile_loop_unsupported p init_comp_st d ((compile_error_iff p _).1 hd)

/-- Claim C9 witness: the single-character pattern `é` instantiates the
amended claim. -/
theorem claim9_witness :
    (∃ e, compile ['é'] = .error e) ∧
    ∀ d, compile ['é'] = .error (.unsupportedToken d) →
      d ∈ ['é'] ∧ isascii d = false :=
  claim9_amended ['é'] ⟨'é', by decide, by decide⟩

/-- Claim C10: every ASCII character other than `.`, `*` and `+` is
compiled as a literal: `__init_next_state` yields an `AsciiState` carrying
it, the compile loop appends exactly that state, and the `check_self` of
any `AsciiState` accepts its stored character and nothing else. -/
theorem claim10_literal_states (c : Char) (hA : isascii c = true)
    (hdot : c ≠ '.') (hstar : c ≠ '*') (hplus : c ≠ '+') :
    init_next_state c = .ok (.asciiState c) ∧
    (∀ st : CompSt, ∃ a', compile_step st c =
        .ok ⟨a' ++ [⟨.asciiState c, []⟩], some st.arena.length⟩) ∧
    (∀ (a : RegexFSM) (i : Nat) (d : Char), kindAt a i = .asciiState c →
        (check_self a i d = true ↔ d = c)) := by
  have hinit : init_next_state c = .ok (.asciiState c) := by
    unfold init_next_state
    rw [if_neg hdot, if_pos hA]
  refine ⟨hinit, ?_, ?_⟩
  · intro st
    unfold compile_step
    rw [if_neg hstar, if_neg hplus, hinit]
    cases htmp : st.tmp_next_state with
    | some t => exact ⟨_, rfl⟩
    | none => exact ⟨_, rfl⟩
  · intro a i d hk
    unfold check_self check_self_fuel
    rw [hk]
    simp

/-- Claim C10 witness: the reserved-looking metacharacter `?` is an
ordinary literal. -/
theorem claim10_witness :
    init_next_state '?' = .ok (.asciiState '?') ∧
    (∀ st : CompSt, ∃ a', compile_step st '?' =
        .ok ⟨a' ++ [⟨.asciiState '?', []⟩], some st.arena.length⟩) ∧
    (∀ (a : RegexFSM) (i : Nat) (d : Char), kindAt a i = .asciiState '?' →
        (check_self a i d = true ↔ d = '?')) :=
  claim10_literal_states '?' (by decide) (by decide) (by decide) (by decide)

/-! ## Arena access lemmas -/

theorem getD_set_self {α : Type} (v d : α) :
    ∀ (l : List α) (i : Nat), i < l.length → (l.set i v).getD i d = v := by
  intro l
  induction l with
  | nil => intro i h; simp at h
  | cons x xs ih =>
    intro i h
    cases i with
    | zero => rfl
    | succ i => simpa [List.set, List.getD_cons_succ] using ih i (by simpa using h)

theorem getD_set_ne {α : Type} (v d : α) :
    ∀ (l : List α) (i j : Nat), i ≠ j → (l.set i v).getD j d = l.getD j d := by
  intro l
  induction l with
  | nil => intro i j _; simp
  | cons x xs ih =>
    intro i j hne
    cases i with
    | zero =>
      cases j with
      | zero => exact absurd rfl hne
      | succ j => rfl
    | succ i =>
      cases j with
      | zero => rfl
      | succ j => simpa [List.set, List.getD_cons_succ] using ih i j (by omega)

theorem length_upd_next (a : RegexFSM) (i : Nat) (f : List Nat → List Nat) :
    (upd_next a i f).length = a.length := by
  simp [upd_next]

theorem stateAt_append_lt (a : RegexFSM) (x : StateData) (i : Nat)
    (h : i < a.length) : stateAt (a ++ [x]) i = stateAt a i := by
  unfold stateAt
  exact List.getD_append _ _ _ _ h

theorem stateAt_append_self (a : RegexFSM) (x : StateData) :
    stateAt (a ++ [x]) a.length = x := by
  unfold stateAt
  rw [List.getD_append_right _ _ _ _ (Nat.le_refl _), Nat.sub_self]
  rfl

theorem stateAt_oor (a : RegexFSM) (i : Nat) (h : a.length ≤ i) :
    stateAt a i = ⟨.terminationState, []⟩ := by
  unfold stateAt
  exact List.getD_eq_default _ _ h

theorem stateAt_append_gt (a : RegexFSM) (x : StateData) (i : Nat)
    (h : a.length < i) : stateAt (a ++ [x]) i = ⟨.terminationState, []⟩ :=
  stateAt_oor _ _ (by rw [List.length_append]; simpa using h)

theorem stateAt_upd_self (a : RegexFSM) (i : Nat) (f : List Nat → List Nat)
    (h : i < a.length) :
    stateAt (upd_next a i f) i = ⟨kindAt a i, f (nextAt a i)⟩ := by
  unfold stateAt upd_next
  exact getD_set_self _ _ _ _ h

theorem stateAt_upd_ne (a : RegexFSM) (i j : Nat) (f : List Nat → List Nat)
    (h : i ≠ j) : stateAt (upd_next a i f) j = stateAt a j := by
  unfold stateAt upd_next
  exact getD_set_ne _ _ _ _ _ h

/-- `upd_next` never changes any state's kind. -/
theorem kindAt_upd_next (a : RegexFSM) (i j : Nat) (f : List Nat → List Nat) :
    kindAt (upd_next a i f) j = kindAt a j := by
  by_cases hij : i = j
  · subst hij
    by_cases hi : i < a.length
    · rw [kindAt, stateAt_upd_self a i f hi]
    · have h1 : a.length ≤ i := by omega
      have h2 : (upd_next a i f).length ≤ i := by rw [length_upd_next]; omega
      rw [kindAt, kindAt, stateAt_oor _ _ h1, stateAt_oor _ _ h2]
  · rw [kindAt, stateAt_upd_ne a i j f hij, kindAt]

theorem kindAt_append_lt (a : RegexFSM) (x : StateData) (i : Nat)
    (h : i < a.length) : kindAt (a ++ [x]) i = kindAt a i := by
  rw [kindAt, stateAt_append_lt _ _ _ h, kindAt]

theorem nextAt_append_lt (a : RegexFSM) (x : StateData) (i : Nat)
    (h : i < a.length) : nextAt (a ++ [x]) i = nextAt a i := by
  rw [nextAt, stateAt_append_lt _ _ _ h, nextAt]

theorem kindAt_append_self (a : RegexFSM) (x : StateData) :
    kindAt (a ++ [x]) a.length = x.kind := by
  rw [kindAt, stateAt_append_self]

theorem nextAt_append_self (a : RegexFSM) (x : StateData) :
    nextAt (a ++ [x]) a.length = x.next_states := by
  rw [nextAt, stateAt_append_self]

theorem nextAt_upd_self (a : RegexFSM) (i : Nat) (f : List Nat → List Nat)
    (h : i < a.length) : nextAt (upd_next a i f) i = f (nextAt a i) := by
  rw [nextAt, stateAt_upd_self _ _ _ h]

theorem nextAt_upd_ne (a : RegexFSM) (i j : Nat) (f : List Nat → List Nat)
    (h : i ≠ j) : nextAt (upd_next a i f) j = nextAt a j := by
  rw [nextAt, stateAt_upd_ne _ _ _ _ h, nextAt]

/-! ## Quantifier-free patterns compile to a literal chain (claim C5) -/

/-- Kind of the state created for a non-quantifier token. -/
def atom_kind (c : Char) : StateKind :=
  if c = '.' then .dotState else .asciiState c

theorem init_next_state_atom (c : Char) (h : isascii c = true) :
    init_next_state c = .ok (atom_kind c) := by
  unfold init_next_state atom_kind
  by_cases hc : c = '.'
  · rw [if_pos hc, if_pos hc]
  · rw [if_neg hc, if_pos h, if_neg hc]

/-- Specification-side matching for quantifier-free patterns: same length,
and position by position the pattern character is `.` or equals the input
character. -/
def simple_match : List Char → List Char → Bool
  | [], [] => true
  | [], _ :: _ => false
  | _ :: _, [] => false
  | pc :: pr, ic :: ir => (pc == '.' || ic == pc) && simple_match pr ir

/-- `simple_match` says exactly what the claim says: equal lengths and
pointwise equality with `.` as a single-character wildcard. -/
theorem simple_match_iff (p : List Char) :
    ∀ s : List Char,
      simple_match p s = true ↔
        (s.length = p.length ∧
          ∀ i, i < p.length → (p.getD i ' ' = '.' ∨ s.getD i ' ' = p.getD i ' ')) := by
  induction p with
  | nil =>
    intro s
    cases s with
    | nil => simp [simple_match]
    | cons x xs => simp [simple_match]
  | cons pc pr ih =>
    intro s
    cases s with
    | nil => simp [simple_match]
    | cons ic ir =>
      simp only [simple_match, Bool.and_eq_true, Bool.or_eq_true, beq_iff_eq, ih ir]
      constructor
      · rintro ⟨hpc, hlen, hall⟩
        refine ⟨by simpa using hlen, ?_⟩
        intro i hi
        cases i with
        | zero => simpa using hpc
        | succ i =>
          have := hall i (by simpa using hi)
          simpa [List.getD_cons_succ] using this
      · rintro ⟨hlen, hall⟩
        refine ⟨by simpa using hall 0 (by simp), by simpa using hlen, ?_⟩
        intro i hi
        have := hall (i + 1) (by simpa using hi)
        simpa [List.getD_cons_succ] using this

/-- Shape of the compiler state after scanning a quantifier-free prefix
`q`: start points at the first atom, the atoms form a chain (the last one
still dangling), and `tmp_next_state` is the last atom. -/
structure MidShape (st : CompSt) (q : List Char) : Prop where
  len : st.arena.length = q.length + 2
  k0 : kindAt st.arena 0 = .startState
  n0 : nextAt st.arena 0 = if q.length = 0 then [] else [2]
  k1 : kindAt st.arena 1 = .terminationState
  n1 : nextAt st.arena 1 = []
  atom : ∀ j, j < q.length →
    kindAt st.arena (j + 2) = atom_kind (q.getD j ' ') ∧
    nextAt st.arena (j + 2) = if j + 1 = q.length then [] else [j + 3]
  tmp : st.tmp_next_state = if q.length = 0 then none else some (q.length + 1)

theorem mid_init : MidShape init_comp_st [] := by
  refine ⟨rfl, rfl, rfl, rfl, rfl, ?_, rfl⟩
  intro j hj
  simp at hj

theorem mid_step (st : CompSt) (q : List Char) (c : Char)
    (hm : MidShape st q) (hs : c ≠ '*') (hp : c ≠ '+')
    (ha : isascii c = true) :
    ∃ st', compile_step st c = .ok st' ∧ MidShape st' (q ++ [c]) := by
  have hlen := hm.len
  by_cases hq : q.length = 0
  · -- first atom: it is linked after the start state
    have htmp : st.tmp_next_state = none := by rw [hm.tmp, if_pos hq]
    refine ⟨⟨upd_next st.arena 0 (fun l => l ++ [st.arena.length]) ++
        [⟨atom_kind c, []⟩], some st.arena.length⟩, ?_, ?_⟩
    · unfold compile_step
      rw [if_neg hs, if_neg hp, init_next_state_atom c ha, htmp]
    · have h02 : (0 : Nat) < st.arena.length := by omega
      have hul : (upd_next st.arena 0 (fun l => l ++ [st.arena.length])).length
          = st.arena.length := length_upd_next _ _ _
      refine ⟨?_, ?_, ?_, ?_, ?_, ?_, ?_⟩
      · simp only [List.length_append, List.length_singleton, length_upd_next]
        omega
      · rw [kindAt_append_lt _ _ _ (by omega), kindAt_upd_next]
        exact hm.k0
      · rw [nextAt_append_lt _ _ _ (by omega), nextAt_upd_self _ _ _ h02,
          hm.n0, if_pos hq]
        simp [hq, hlen]
      · rw [kindAt_append_lt _ _ _ (by omega), kindAt_upd_next]
        exact hm.k1
      · rw [nextAt_append_lt _ _ _ (by omega), nextAt_upd_ne _ _ _ _ (by omega)]
        exact hm.n1
      · intro j hj
        have hj0 : j = 0 := by
          rw [List.length_append, List.length_singleton, hq] at hj
          omega
        subst hj0
        have hq' : q = [] := List.length_eq_zero.1 hq
        have hidx : (0 + 2 : Nat) = (upd_next st.arena 0
            (fun l => l ++ [st.arena.length])).length := by rw [hul]; omega
        rw [hidx, kindAt_append_self, nextAt_append_self]
        subst hq'
        exact ⟨rfl, by simp⟩
      · rw [List.length_append, List.length_singleton, if_neg (by omega), hlen, hq]
  · -- later atom: it is linked after the previous atom (= tmp_next_state)
    have htmp : st.tmp_next_state = some (q.length + 1) := by
      rw [hm.tmp, if_neg hq]
    refine ⟨⟨upd_next st.arena (q.length + 1) (fun l => l ++ [st.arena.length]) ++
        [⟨atom_kind c, []⟩], some st.arena.length⟩, ?_, ?_⟩
    · unfold compile_step
      rw [if_neg hs, if_neg hp, init_next_state_atom c ha, htmp]
    · have hub : q.length + 1 < st.arena.length := by omega
      have hul : (upd_next st.arena (q.length + 1)
          (fun l => l ++ [st.arena.length])).length = st.arena.length :=
        length_upd_next _ _ _
      refine ⟨?_, ?_, ?_, ?_, ?_, ?_, ?_⟩
      · simp only [List.length_append, List.length_singleton, length_upd_next]
        omega
      · rw [kindAt_append_lt _ _ _ (by omega), kindAt_upd_next]
        exact hm.k0
      · rw [nextAt_append_lt _ _ _ (by omega), nextAt_upd_ne _ _ _ _ (by omega),
          hm.n0, if_neg hq, List.length_append, List.length_singleton,
          if_neg (by omega)]
      · rw [kindAt_append_lt _ _ _ (by omega), kindAt_upd_next]
        exact hm.k1
      · rw [nextAt_append_lt _ _ _ (by omega), nextAt_upd_ne _ _ _ _ (by omega)]
        exact hm.n1
      · intro j hj
        rw [List.length_append, List.length_singleton] at hj
        by_cases hjq : j = q.length
        · -- the freshly appended atom
          subst hjq
          have hidx : q.length + 2 = (upd_next st.arena (q.length + 1)
              (fun l => l ++ [st.arena.length])).length := by rw [hul]; omega
          rw [hidx, kindAt_append_self, nextAt_append_self]
          refine ⟨?_, by simp [List.length_append]⟩
          have : (q ++ [c]).getD q.length ' ' = c := by
            rw [List.getD_append_right _ _ _ _ (Nat.le_refl _), Nat.sub_self]
            rfl
          rw [this]
        · -- an atom of the prefix
          have hjlt : j < q.length := by omega
          have hgd : (q ++ [c]).getD j ' ' = q.getD j ' ' :=
            List.getD_append _ _ _ _ hjlt
          obtain ⟨hk, hn⟩ := hm.atom j hjlt
          by_cases hjt : j + 2 = q.length + 1
          · -- the previous tail atom: its dangling edge now points at the new atom
            rw [kindAt_append_lt _ _ _ (by omega), kindAt_upd_next,
              nextAt_append_lt _ _ _ (by omega), ← hjt,
              nextAt_upd_self _ _ _ (by omega), hn, if_pos (by omega)]
            refine ⟨by rw [hk, hgd], ?_⟩
            rw [List.length_append, List.length_singleton, if_neg (by omega)]
            have : st.arena.length = j + 3 := by omega
            rw [this]
            rfl
          · rw [kindAt_append_lt _ _ _ (by omega), kindAt_upd_next,
              nextAt_append_lt _ _ _ (by omega), nextAt_upd_ne _ _ _ _ (by omega),
              hn, if_neg (by omega)]
            refine ⟨by rw [hk, hgd], ?_⟩
            rw [List.length_append, List.length_singleton, if_neg (by omega)]
      · rw [List.length_append, List.length_singleton, if_neg (by omega), hlen]

theorem mid_loop (cs : List Char) :
    ∀ (st : CompSt) (q : List Char), MidShape st q →
      (∀ c ∈ cs, c ≠ '*' ∧ c ≠ '+') →
      (∃ e, compile_loop st cs = .error e) ∨
      (∃ st', compile_loop st cs = .ok st' ∧ MidShape st' (q ++ cs)) := by
  induction cs with
  | nil =>
    intro st q hm _
    exact .inr ⟨st, rfl, by simpa using hm⟩
  | cons c cs ih =>
    intro st q hm hq
    obtain ⟨hcs, hcp⟩ := hq c (List.mem_cons_self _ _)
    by_cases ha : isascii c = true
    · obtain ⟨st', hok, hm'⟩ := mid_step st q c hm hcs hcp ha
      rcases ih st' (q ++ [c]) hm' (fun d hd => hq d (List.mem_cons_of_mem _ hd)) with
        ⟨e, he⟩ | ⟨st'', hok'', hm''⟩
      · exact .inl ⟨e, by rw [compile_loop, hok]; exact he⟩
      · refine .inr ⟨st'', by rw [compile_loop, hok]; exact hok'', ?_⟩
        rwa [List.append_assoc, List.singleton_append] at hm''
    · have := compile_step_nonascii st c (by simpa using ha)
      exact .inl ⟨.unsupportedToken c, by rw [compile_loop, this]⟩

/-- Shape of the whole compiled automaton of a quantifier-free pattern: a
linear chain from start through one atom per pattern character to the
terminal state. -/
structure ChainShape (a : RegexFSM) (p : List Char) : Prop where
  len : a.length = p.length + 2
  k0 : kindAt a 0 = .startState
  n0 : nextAt a 0 = if p.length = 0 then [1] else [2]
  k1 : kindAt a 1 = .terminationState
  n1 : nextAt a 1 = []
  atom : ∀ j, j < p.length →
    kindAt a (j + 2) = atom_kind (p.getD j ' ') ∧
    nextAt a (j + 2) = if j + 1 = p.length then [1] else [j + 3]

theorem compile_ok_shape (p : List Char) (A : RegexFSM)
    (hq : ∀ c ∈ p, c ≠ '*' ∧ c ≠ '+') (hc : compile p = .ok A) :
    ChainShape A p := by
  rcases mid_loop p init_comp_st [] mid_init hq with ⟨e, he⟩ | ⟨st', hok, hm⟩
  · unfold compile at hc
    rw [he] at hc
    exact absurd hc (by simp)
  · unfold compile at hc
    rw [hok] at hc
    have hA : A = finalize st' := (Except.ok.inj hc).symm
    subst hA
    rw [List.nil_append] at hm
    have hlen := hm.len
    by_cases hp : p.length = 0
    · have htmp : st'.tmp_next_state = none := by rw [hm.tmp, if_pos hp]
      unfold finalize
      rw [htmp]
      refine ⟨?_, ?_, ?_, ?_, ?_, ?_⟩
      · rw [length_upd_next, hlen]
      · rw [kindAt_upd_next]; exact hm.k0
      · rw [nextAt_upd_self _ _ _ (by omega), hm.n0, if_pos hp, if_pos hp]
        rfl
      · rw [kindAt_upd_next]; exact hm.k1
      · rw [nextAt_upd_ne _ _ _ _ (by omega)]; exact hm.n1
      · intro j hj
        rw [hp] at hj
        omega
    · have htmp : st'.tmp_next_state = some (p.length + 1) := by
        rw [hm.tmp, if_neg hp]
      unfold finalize
      rw [htmp]
      refine ⟨?_, ?_, ?_, ?_, ?_, ?_⟩
      · rw [length_upd_next, hlen]
      · rw [kindAt_upd_next]; exact hm.k0
      · rw [nextAt_upd_ne _ _ _ _ (by omega), hm.n0, if_neg hp, if_neg hp]
      · rw [kindAt_upd_next]; exact hm.k1
      · rw [nextAt_upd_ne _ _ _ _ (by omega)]; exact hm.n1
      · intro j hj
        obtain ⟨hk, hn⟩ := hm.atom j hj
        refine ⟨by rw [kindAt_upd_next]; exact hk, ?_⟩
        by_cases hjt : j + 2 = p.length + 1
        · rw [show p.length + 1 = j + 2 from hjt.symm,
            nextAt_upd_self _ _ _ (by omega), hn, if_pos (by omega), if_pos (by omega)]
          rfl
        · rw [nextAt_upd_ne _ _ _ _ (by omega), hn, if_neg (by omega), if_neg (by omega)]

/-- Arena index of the matcher state after `k` pattern characters: the
start state for `k = 0`, the `k`-th atom (arena index `k+1`) otherwise. -/
def state_of (k : Nat) : Nat := if k = 0 then 0 else k + 1

theorem chain_next (a : RegexFSM) (p : List Char) (h : ChainShape a p)
    (k : Nat) (hk : k ≤ p.length) :
    nextAt a (state_of k) = [if k = p.length then 1 else state_of (k + 1)] := by
  by_cases hk0 : k = 0
  · subst hk0
    rw [state_of, if_pos rfl, h.n0]
    by_cases hp : p.length = 0
    · rw [if_pos hp, if_pos (by omega)]
    · rw [if_neg hp, if_neg (by omega), state_of, if_neg (by omega)]
  · obtain ⟨k', rfl⟩ : ∃ k', k = k' + 1 := ⟨k - 1, by omega⟩
    have hk' : k' < p.length := by omega
    have hn := (h.atom k' hk').2
    rw [state_of, if_neg hk0, show k' + 1 + 1 = k' + 2 from rfl, hn]
    by_cases he : k' + 1 = p.length
    · rw [if_pos he, if_pos he]
    · rw [if_neg he, if_neg he, state_of, if_neg (by omega)]

theorem chain_kind (a : RegexFSM) (p : List Char) (h : ChainShape a p)
    (k : Nat) (hk : k < p.length) :
    kindAt a (state_of (k + 1)) = atom_kind (p.getD k ' ') := by
  rw [state_of, if_neg (by omega)]
  exact (h.atom k hk).1

theorem atom_kind_not_star (c : Char) : is_star (atom_kind c) = false := by
  unfold atom_kind
  by_cases hc : c = '.'
  · rw [if_pos hc]; rfl
  · rw [if_neg hc]; rfl

theorem chain_check_self (a : RegexFSM) (p : List Char) (h : ChainShape a p)
    (k : Nat) (hk : k < p.length) (d : Char) :
    check_self a (state_of (k + 1)) d =
      (p.getD k ' ' == '.' || d == p.getD k ' ') := by
  unfold check_self check_self_fuel
  rw [chain_kind a p h k hk]
  unfold atom_kind
  by_cases hc : p.getD k ' ' = '.'
  · rw [if_pos hc, hc]
    simp
  · rw [if_neg hc]
    have hfalse : (p.getD k ' ' == '.') = false := beq_eq_false_iff_ne.mpr hc
    rw [hfalse, Bool.false_or]

theorem chain_accept (a : RegexFSM) (p : List Char) (h : ChainShape a p)
    (k : Nat) (hk : k ≤ p.length) :
    at_end_accept a (state_of k) = decide (k = p.length) := by
  unfold at_end_accept
  rw [chain_next a p h k hk]
  by_cases he : k = p.length
  · rw [if_pos he]
    simp [he]
  · rw [if_neg he, decide_eq_false he]
    have hk' : k < p.length := by omega
    have hkind' : kindAt a (k + 1 + 1) = atom_kind (p.getD k ' ') := by
      have := chain_kind a p h k hk'
      rwa [state_of, if_neg (by omega)] at this
    rw [state_of, if_neg (by omega)]
    simp [List.contains, hkind', atom_kind_not_star]

theorem chain_run (a : RegexFSM) (p : List Char) (h : ChainShape a p)
    (s : List Char) :
    ∀ (m pos k : Nat), m = s.length - pos → pos ≤ s.length → k ≤ p.length →
      check_string_fuel a s [(state_of k, pos)] (m + 2) =
        some (simple_match (p.drop k) (s.drop pos)) := by
  intro m
  induction m with
  | zero =>
    intro pos k hm hpos hk
    have hpe : pos = s.length := by omega
    subst hpe
    rw [show (0 + 2 : Nat) = 0 + 1 + 1 from rfl, check_string_fuel, if_pos rfl,
      chain_accept a p h k hk, List.drop_length]
    by_cases he : k = p.length
    · subst he
      rw [List.drop_length]
      simp [simple_match]
    · rw [decide_eq_false he]
      have hk' : k < p.length := by omega
      have hpdrop : p.drop k = p.getD k ' ' :: p.drop (k + 1) := by
        rw [List.getD_eq_getElem _ _ hk']
        exact List.drop_eq_getElem_cons hk'
      rw [hpdrop]
      simp only [Bool.false_eq_true, if_false, check_string_fuel, simple_match]
  | succ m ih =>
    intro pos k hm hpos hk
    have hlt : pos < s.length := by omega
    rw [show m + 1 + 2 = m + 2 + 1 from rfl, check_string_fuel, if_neg (by omega),
      List.nil_append, step_adds, chain_next a p h k hk, concat_map, concat_map,
      List.append_nil]
    have hsdrop : s.drop pos = s.getD pos ' ' :: s.drop (pos + 1) := by
      rw [List.getD_eq_getElem _ _ hlt]
      exact List.drop_eq_getElem_cons hlt
    by_cases he : k = p.length
    · rw [if_pos he]
      have hcs : check_self a 1 (s.getD pos ' ') = false := by
        unfold check_self check_self_fuel
        rw [h.k1]
      have hst : is_star (kindAt a 1) = false := by rw [h.k1]; rfl
      rw [hcs, hst]
      subst he
      rw [List.drop_length, hsdrop]
      simp only [Bool.false_eq_true, if_false, List.append_nil, simple_match]
      rw [show m + 2 = m + 1 + 1 from rfl, check_string_fuel]
    · rw [if_neg he]
      have hk' : k < p.length := by omega
      have hcs := chain_check_self a p h k hk' (s.getD pos ' ')
      have hst : is_star (kindAt a (state_of (k + 1))) = false := by
        rw [chain_kind a p h k hk', atom_kind_not_star]
      have hpdrop : p.drop k = p.getD k ' ' :: p.drop (k + 1) := by
        rw [List.getD_eq_getElem _ _ hk']
        exact List.drop_eq_getElem_cons hk'
      rw [hcs, hst, hpdrop, hsdrop]
      simp only [Bool.false_eq_true, if_false, List.append_nil, simple_match]
      by_cases hcond :
          (p.getD k ' ' == '.' || s.getD pos ' ' == p.getD k ' ') = true
      · rw [hcond, if_pos rfl, Bool.true_and]
        exact ih (pos + 1) (k + 1) (by omega) (by omega) (by omega)
      · rw [Bool.not_eq_true] at hcond
        rw [hcond]
        simp only [Bool.false_eq_true, if_false, Bool.false_and]
        rw [show m + 2 = m + 1 + 1 from rfl, check_string_fuel]

/-- Claim C5: for every pattern without `*` and `+` that compiles, and for
every input string, `check_string` returns `simple_match`, which holds iff
the input has the pattern's length and agrees with it position by
position, `.` accepting any single character. -/
theorem claim5_no_quantifiers (p : List Char) (A : RegexFSM) (s : List Char)
    (hq : ∀ c ∈ p, c ≠ '*' ∧ c ≠ '+') (hc : compile p = .ok A) :
    check_string A s (simple_match p s) ∧
    (simple_match p s = true ↔
      (s.length = p.length ∧
        ∀ i, i < p.length →
          (p.getD i ' ' = '.' ∨ s.getD i ' ' = p.getD i ' '))) := by
  have hsh := compile_ok_shape p A hq hc
  refine ⟨⟨s.length + 2, ?_⟩, simple_match_iff p s⟩
  have hrun := chain_run A p hsh s s.length 0 0 (by omega) (by omega) (by omega)
  simpa [state_of] using hrun

/-- Result of compiling the pattern `a.c`. -/
def fsm_a_dot_c : RegexFSM :=
  [⟨.startState, [2]⟩, ⟨.terminationState, []⟩, ⟨.asciiState 'a', [3]⟩,
   ⟨.dotState, [4]⟩, ⟨.asciiState 'c', [1]⟩]

/-- Claim C5 witness: the quantifier-free pattern `a.c` on input `abc`. -/
theorem claim5_witness :
    check_string fsm_a_dot_c ['a', 'b', 'c']
      (simple_match ['a', '.', 'c'] ['a', 'b', 'c']) ∧
    (simple_match ['a', '.', 'c'] ['a', 'b', 'c'] = true ↔
      (['a', 'b', 'c'].length = ['a', '.', 'c'].length ∧
        ∀ i, i < ['a', '.', 'c'].length →
          (['a', '.', 'c'].getD i ' ' = '.' ∨
            ['a', 'b', 'c'].getD i ' ' = ['a', '.', 'c'].getD i ' '))) :=
  claim5_no_quantifiers ['a', '.', 'c'] fsm_a_dot_c ['a', 'b', 'c']
    (by decide) (by rfl)

/-! ## Termination of the matcher (claim C7)

The epsilon moves of the worklist loop (the same-position enqueues
performed for `StarState` successors) strictly descend a rank on states,
because a star's successor list can only contain the star itself, atoms,
the terminal state, and earlier-created (smaller-index) stars.  Every
other enqueue advances the input position.  A weighted sum over the
worklist therefore strictly decreases at every loop iteration. -/

theorem kindAt_upd_append (a : RegexFSM) (i : Nat) (f : List Nat → List Nat)
    (x : StateData) (j : Nat) :
    kindAt (upd_next a i f ++ [x]) j =
      if j = a.length then x.kind else kindAt a j := by
  by_cases hj : j = a.length
  · subst hj
    rw [if_pos rfl, ← length_upd_next a i f, kindAt_append_self]
  · rw [if_neg hj]
    by_cases hlt : j < a.length
    · rw [kindAt_append_lt _ _ _ (by rw [length_upd_next]; omega), kindAt_upd_next]
    · rw [kindAt, stateAt_append_gt _ _ _ (by rw [length_upd_next]; omega),
        kindAt, stateAt_oor _ _ (by omega)]

theorem kindAt_upd2_append (a : RegexFSM) (i1 : Nat) (f1 : List Nat → List Nat)
    (i2 : Nat) (f2 : List Nat → List Nat) (x : StateData) (j : Nat) :
    kindAt (upd_next (upd_next a i1 f1) i2 f2 ++ [x]) j =
      if j = a.length then x.kind else kindAt a j := by
  rw [kindAt_upd_append, length_upd_next, kindAt_upd_next]

theorem nextAt_upd_append (a : RegexFSM) (i : Nat) (f : List Nat → List Nat)
    (x : StateData) (j : Nat) (hi : i < a.length) :
    nextAt (upd_next a i f ++ [x]) j =
      if j = a.length then x.next_states
      else if j = i then f (nextAt a i) else nextAt a j := by
  by_cases hj : j = a.length
  · subst hj
    rw [if_pos rfl, ← length_upd_next a i f, nextAt_append_self]
  · rw [if_neg hj]
    by_cases hji : j = i
    · subst hji
      rw [if_pos rfl, nextAt_append_lt _ _ _ (by rw [length_upd_next]; omega),
        nextAt_upd_self _ _ _ hi]
    · rw [if_neg hji]
      by_cases hlt : j < a.length
      · rw [nextAt_append_lt _ _ _ (by rw [length_upd_next]; omega),
          nextAt_upd_ne _ _ _ _ (fun h => hji h.symm)]
      · rw [nextAt, stateAt_append_gt _ _ _ (by rw [length_upd_next]; omega),
          nextAt, stateAt_oor _ _ (by omega)]

theorem nextAt_upd2_append (a : RegexFSM) (i1 : Nat) (f1 : List Nat → List Nat)
    (i2 : Nat) (f2 : List Nat → List Nat) (x : StateData) (j : Nat)
    (h1 : i1 < a.length) (h2 : i2 < a.length) (hne : i1 ≠ i2) :
    nextAt (upd_next (upd_next a i1 f1) i2 f2 ++ [x]) j =
      if j = a.length then x.next_states
      else if j = i2 then f2 (nextAt a i2)
      else if j = i1 then f1 (nextAt a i1) else nextAt a j := by
  rw [nextAt_upd_append _ _ _ _ _ (by rw [length_upd_next]; omega),
    length_upd_next, nextAt_upd_ne _ _ _ _ hne]
  by_cases hj : j = a.length
  · rw [if_pos hj, if_pos hj]
  · rw [if_neg hj, if_neg hj]
    by_cases hj2 : j = i2
    · rw [if_pos hj2, if_pos hj2]
    · rw [if_neg hj2, if_neg hj2]
      by_cases hj1 : j = i1
      · rw [if_pos hj1, hj1, nextAt_upd_self _ _ _ h1]
      · rw [if_neg hj1, nextAt_upd_ne _ _ _ _ (fun h => hj1 h.symm)]

theorem mem_set_last (l : List Nat) (v j : Nat) (h : j ∈ set_last l v) :
    j ∈ l ∨ j = v := by
  unfold set_last at h
  rcases List.mem_append.1 h with h | h
  · exact .inl (List.dropLast_subset l h)
  · exact .inr (List.mem_singleton.1 h)

/-- Structural invariants of every arena the compiler ever builds.  The
key clause is `star_next`: a star's successors are only itself, atoms, the
terminal state, or strictly earlier-created stars — this is what makes the
matcher's epsilon expansion well-founded. -/
structure Invars (a : RegexFSM) : Prop where
  k0 : kindAt a 0 = .startState
  k1 : kindAt a 1 = .terminationState
  len2 : 2 ≤ a.length
  term_next : ∀ i, kindAt a i = .terminationState → nextAt a i = []
  valid : ∀ i j, j ∈ nextAt a i → j < a.length
  atom_next : ∀ i j, is_atom (kindAt a i) = true → j ∈ nextAt a i →
    is_star (kindAt a j) = false
  star_next : ∀ i t j, kindAt a i = .starState t → j ∈ nextAt a i →
    j = i ∨ is_atom (kindAt a j) = true ∨ kindAt a j = .terminationState ∨
      (is_star (kindAt a j) = true ∧ j < i)

/-- Invariants of the full compiler state: the arena invariants plus the
shape of the `tmp_next_state` reference (an in-range atom or star, never
start, terminal or a plus). -/
structure CInv (st : CompSt) : Prop where
  inv : Invars st.arena
  tmp : ∀ t, st.tmp_next_state = some t → 2 ≤ t ∧ t < st.arena.length ∧
    (is_atom (kindAt st.arena t) = true ∨ is_star (kindAt st.arena t) = true)

theorem nextAt_init (i : Nat) : nextAt init_comp_st.arena i = [] := by
  match i with
  | 0 => rfl
  | 1 => rfl
  | (n + 2) =>
    rw [nextAt, stateAt_oor]
    show (2 : Nat) ≤ n + 2
    omega

theorem cinv_init : CInv init_comp_st := by
  refine ⟨⟨rfl, rfl, by rw [show init_comp_st.arena.length = 2 from rfl], ?_, ?_, ?_, ?_⟩, ?_⟩
  · intro i _
    exact nextAt_init i
  · intro i j hj
    rw [nextAt_init] at hj
    exact absurd hj (List.not_mem_nil j)
  · intro i j _ hj
    rw [nextAt_init] at hj
    exact absurd hj (List.not_mem_nil j)
  · intro i t j _ hj
    rw [nextAt_init] at hj
    exact absurd hj (List.not_mem_nil j)
  · intro t ht
    exact absurd ht (by simp [init_comp_st])

theorem cinv_star_step (st : CompSt) (t : Nat) (hc : CInv st)
    (htmp : st.tmp_next_state = some t) :
    CInv ⟨upd_next st.arena 0 (fun l => set_last l st.arena.length) ++
      [⟨.starState t, [t, st.arena.length]⟩], some st.arena.length⟩ := by
  obtain ⟨ht2, htlt, htkind⟩ := hc.tmp t htmp
  have hI := hc.inv
  have hlen2 := hI.len2
  have hk : ∀ j, kindAt (upd_next st.arena 0 (fun l => set_last l st.arena.length) ++
      [⟨.starState t, [t, st.arena.length]⟩]) j =
      if j = st.arena.length then .starState t else kindAt st.arena j :=
    fun j => kindAt_upd_append _ _ _ _ j
  have hn : ∀ j, nextAt (upd_next st.arena 0 (fun l => set_last l st.arena.length) ++
      [⟨.starState t, [t, st.arena.length]⟩]) j =
      if j = st.arena.length then [t, st.arena.length]
      else if j = 0 then set_last (nextAt st.arena 0) st.arena.length
      else nextAt st.arena j :=
    fun j => nextAt_upd_append _ _ _ _ j (by omega)
  have hlen' : (upd_next st.arena 0 (fun l => set_last l st.arena.length) ++
      [(⟨.starState t, [t, st.arena.length]⟩ : StateData)]).length
      = st.arena.length + 1 := by
    rw [List.length_append, List.length_singleton, length_upd_next]
  have hInv : Invars (upd_next st.arena 0 (fun l => set_last l st.arena.length) ++
      [⟨.starState t, [t, st.arena.length]⟩]) := by
    refine ⟨?_, ?_, ?_, ?_, ?_, ?_, ?_⟩
    · rw [hk 0, if_neg (by omega)]; exact hI.k0
    · rw [hk 1, if_neg (by omega)]; exact hI.k1
    · rw [hlen']; omega
    · intro i hi
      rw [hk i] at hi
      by_cases hin : i = st.arena.length
      · rw [if_pos hin] at hi; cases hi
      · rw [if_neg hin] at hi
        by_cases hi0 : i = 0
        · rw [hi0, hI.k0] at hi; cases hi
        · rw [hn i, if_neg hin, if_neg hi0]
          exact hI.term_next i hi
    · intro i j hj
      rw [hn i] at hj
      rw [hlen']
      by_cases hin : i = st.arena.length
      · rw [if_pos hin] at hj
        rcases (by simpa using hj : j = t ∨ j = st.arena.length) with rfl | rfl <;> omega
      · rw [if_neg hin] at hj
        by_cases hi0 : i = 0
        · rw [if_pos hi0] at hj
          rcases mem_set_last _ _ _ hj with hjl | rfl
          · have := hI.valid 0 j hjl
            omega
          · omega
        · rw [if_neg hi0] at hj
          have := hI.valid i j hj
          omega
    · intro i j hai hj
      rw [hk i] at hai
      by_cases hin : i = st.arena.length
      · rw [if_pos hin] at hai; cases hai
      · rw [if_neg hin] at hai
        have hi0 : i ≠ 0 := by
          intro h
          rw [h, hI.k0] at hai
          cases hai
        rw [hn i, if_neg hin, if_neg hi0] at hj
        have hjlt := hI.valid i j hj
        rw [hk j, if_neg (by omega)]
        exact hI.atom_next i j hai hj
    · intro i t' j hsi hj
      rw [hk i] at hsi
      rw [hn i] at hj
      by_cases hin : i = st.arena.length
      · rw [if_pos hin] at hsi hj
        rcases (by simpa using hj : j = t ∨ j = st.arena.length) with rfl | rfl
        · rcases htkind with hAtom | hStar
          · refine .inr (.inl ?_)
            rw [hk j, if_neg (by omega)]
            exact hAtom
          · refine .inr (.inr (.inr ⟨?_, by omega⟩))
            rw [hk j, if_neg (by omega)]
            exact hStar
        · exact .inl hin.symm
      · rw [if_neg hin] at hsi hj
        have hi0 : i ≠ 0 := by
          intro h
          rw [h, hI.k0] at hsi
          cases hsi
        rw [if_neg hi0] at hj
        have hjlt := hI.valid i j hj
        rcases hI.star_next i t' j hsi hj with rfl | hA | hT | ⟨hS, hlt⟩
        · exact .inl rfl
        · exact .inr (.inl (by rw [hk j, if_neg (by omega)]; exact hA))
        · exact .inr (.inr (.inl (by rw [hk j, if_neg (by omega)]; exact hT)))
        · exact .inr (.inr (.inr ⟨by rw [hk j, if_neg (by omega)]; exact hS, hlt⟩))
  refine ⟨hInv, ?_⟩
  intro u hu
  have hu' : u = st.arena.length := by simpa using hu.symm
  subst hu'
  refine ⟨by omega, by rw [hlen']; omega, .inr ?_⟩
  rw [hk _, if_pos rfl]
  rfl

theorem cinv_plus_step (st : CompSt) (t : Nat) (hc : CInv st)
    (htmp : st.tmp_next_state = some t) :
    CInv ⟨upd_next (upd_next st.arena 0 (fun l => set_last l st.arena.length)) t
        (fun l => l ++ [t]) ++ [⟨.plusState t, [t]⟩], some t⟩ := by
  obtain ⟨ht2, htlt, htkind⟩ := hc.tmp t htmp
  have hI := hc.inv
  have hlen2 := hI.len2
  have htk_ne_term : kindAt st.arena t ≠ .terminationState := by
    intro h
    rw [h] at htkind
    rcases htkind with hA | hS
    · simp [is_atom] at hA
    · simp [is_star] at hS
  have hk : ∀ j, kindAt (upd_next (upd_next st.arena 0
      (fun l => set_last l st.arena.length)) t (fun l => l ++ [t]) ++
      [⟨.plusState t, [t]⟩]) j =
      if j = st.arena.length then .plusState t else kindAt st.arena j :=
    fun j => kindAt_upd2_append _ _ _ _ _ _ j
  have hn : ∀ j, nextAt (upd_next (upd_next st.arena 0
      (fun l => set_last l st.arena.length)) t (fun l => l ++ [t]) ++
      [⟨.plusState t, [t]⟩]) j =
      if j = st.arena.length then [t]
      else if j = t then nextAt st.arena t ++ [t]
      else if j = 0 then set_last (nextAt st.arena 0) st.arena.length
      else nextAt st.arena j :=
    fun j => nextAt_upd2_append _ _ _ _ _ _ j (by omega) (by omega) (by omega)
  have hlen' : (upd_next (upd_next st.arena 0
      (fun l => set_last l st.arena.length)) t (fun l => l ++ [t]) ++
      [(⟨.plusState t, [t]⟩ : StateData)]).length = st.arena.length + 1 := by
    rw [List.length_append, List.length_singleton, length_upd_next, length_upd_next]
  have hInv : Invars (upd_next (upd_next st.arena 0
      (fun l => set_last l st.arena.length)) t (fun l => l ++ [t]) ++
      [⟨.plusState t, [t]⟩]) := by
    refine ⟨?_, ?_, ?_, ?_, ?_, ?_, ?_⟩
    · rw [hk 0, if_neg (by omega)]; exact hI.k0
    · rw [hk 1, if_neg (by omega)]; exact hI.k1
    · rw [hlen']; omega
    · intro i hi
      rw [hk i] at hi
      by_cases hin : i = st.arena.length
      · rw [if_pos hin] at hi; cases hi
      · rw [if_neg hin] at hi
        have hit : i ≠ t := by
          intro h
          rw [h] at hi
          exact htk_ne_term hi
        have hi0 : i ≠ 0 := by
          intro h
          rw [h, hI.k0] at hi
          cases hi
        rw [hn i, if_neg hin, if_neg hit, if_neg hi0]
        exact hI.term_next i hi
    · intro i j hj
      rw [hn i] at hj
      rw [hlen']
      by_cases hin : i = st.arena.length
      · rw [if_pos hin] at hj
        have : j = t := by simpa using hj
        omega
      · rw [if_neg hin] at hj
        by_cases hit : i = t
        · rw [if_pos hit] at hj
          rcases List.mem_append.1 hj with hjl | hje
          · have := hI.valid t j hjl
            omega
          · have : j = t := by simpa using hje
            omega
        · rw [if_neg hit] at hj
          by_cases hi0 : i = 0
          · rw [if_pos hi0] at hj
            rcases mem_set_last _ _ _ hj with hjl | rfl
            · have := hI.valid 0 j hjl
              omega
            · omega
          · rw [if_neg hi0] at hj
            have := hI.valid i j hj
            omega
    · intro i j hai hj
      rw [hk i] at hai
      by_cases hin : i = st.arena.length
      · rw [if_pos hin] at hai; cases hai
      · rw [if_neg hin] at hai
        have hi0 : i ≠ 0 := by
          intro h
          rw [h, hI.k0] at hai
          cases hai
        rw [hn i, if_neg hin] at hj
        by_cases hit : i = t
        · rw [if_pos hit] at hj
          rcases List.mem_append.1 hj with hjl | hje
          · have hjlt := hI.valid t j hjl
            rw [hk j, if_neg (by omega)]
            exact hI.atom_next t j (by rw [← hit]; exact hai) hjl
          · have hje' : j = t := by simpa using hje
            rw [hje', hk t, if_neg (by omega), ← hit]
            rcases hit ▸ htkind with hA | hS
            · cases hkind : kindAt st.arena i <;> rw [hkind] at hai <;> first | rfl | cases hai
            · cases hkind : kindAt st.arena i <;> rw [hkind] at hai <;> first | rfl | cases hai
        · rw [if_neg hit, if_neg hi0] at hj
          have hjlt := hI.valid i j hj
          rw [hk j, if_neg (by omega)]
          exact hI.atom_next i j hai hj
    · intro i t' j hsi hj
      rw [hk i] at hsi
      rw [hn i] at hj
      by_cases hin : i = st.arena.length
      · rw [if_pos hin] at hsi; cases hsi
      · rw [if_neg hin] at hsi
        have hi0 : i ≠ 0 := by
          intro h
          rw [h, hI.k0] at hsi
          cases hsi
        rw [if_neg hin] at hj
        by_cases hit : i = t
        · rw [if_pos hit] at hj
          rcases List.mem_append.1 hj with hjl | hje
          · have hjlt := hI.valid t j hjl
            rcases hI.star_next i t' j hsi (by rw [hit]; exact hjl) with rfl | hA | hT | ⟨hS, hlt⟩
            · exact .inl rfl
            · exact .inr (.inl (by rw [hk j, if_neg (by omega)]; exact hA))
            · exact .inr (.inr (.inl (by rw [hk j, if_neg (by omega)]; exact hT)))
            · exact .inr (.inr (.inr ⟨by rw [hk j, if_neg (by omega)]; exact hS, hlt⟩))
          · have : j = t := by simpa using hje
            rw [this, ← hit]
            exact .inl rfl
        · rw [if_neg hit, if_neg hi0] at hj
          have hjlt := hI.valid i j hj
          rcases hI.star_next i t' j hsi hj with rfl | hA | hT | ⟨hS, hlt⟩
          · exact .inl rfl
          · exact .inr (.inl (by rw [hk j, if_neg (by omega)]; exact hA))
          · exact .inr (.inr (.inl (by rw [hk j, if_neg (by omega)]; exact hT)))
          · exact .inr (.inr (.inr ⟨by rw [hk j, if_neg (by omega)]; exact hS, hlt⟩))
  refine ⟨hInv, ?_⟩
  intro u hu
  have hu' : u = t := by simpa using hu.symm
  subst hu'
  refine ⟨ht2, by rw [hlen']; omega, ?_⟩
  rw [hk u, if_neg (by omega)]
  exact htkind

theorem is_star_of_atom {k : StateKind} (h : is_atom k = true) :
    is_star k = false := by
  cases k <;> first | rfl | cases h

theorem cinv_atom_step (st : CompSt) (u : Nat) (k : StateKind) (hc : CInv st)
    (hka : is_atom k = true)
    (hu : u = 0 ∨ (2 ≤ u ∧ u < st.arena.length ∧
      (is_atom (kindAt st.arena u) = true ∨ is_star (kindAt st.arena u) = true))) :
    CInv ⟨upd_next st.arena u (fun l => l ++ [st.arena.length]) ++ [⟨k, []⟩],
      some st.arena.length⟩ := by
  have hI := hc.inv
  have hlen2 := hI.len2
  have hult : u < st.arena.length := by
    rcases hu with rfl | ⟨_, h, _⟩
    · omega
    · exact h
  have hk_ne_term : k ≠ .terminationState := by
    intro h
    rw [h] at hka
    cases hka
  have hk_ne_star : ∀ t', k ≠ .starState t' := by
    intro t' h
    rw [h] at hka
    cases hka
  have hku_ne_term : kindAt st.arena u ≠ .terminationState := by
    rcases hu with rfl | ⟨_, _, hA | hS⟩
    · rw [hI.k0]; intro h; cases h
    · intro h; rw [h] at hA; cases hA
    · intro h; rw [h] at hS; cases hS
  have hk : ∀ j, kindAt (upd_next st.arena u (fun l => l ++ [st.arena.length]) ++
      [⟨k, []⟩]) j = if j = st.arena.length then k else kindAt st.arena j :=
    fun j => kindAt_upd_append _ _ _ _ j
  have hn : ∀ j, nextAt (upd_next st.arena u (fun l => l ++ [st.arena.length]) ++
      [⟨k, []⟩]) j =
      if j = st.arena.length then []
      else if j = u then nextAt st.arena u ++ [st.arena.length]
      else nextAt st.arena j :=
    fun j => nextAt_upd_append _ _ _ _ j hult
  have hlen' : (upd_next st.arena u (fun l => l ++ [st.arena.length]) ++
      [(⟨k, []⟩ : StateData)]).length = st.arena.length + 1 := by
    rw [List.length_append, List.length_singleton, length_upd_next]
  have hInv : Invars (upd_next st.arena u (fun l => l ++ [st.arena.length]) ++
      [⟨k, []⟩]) := by
    refine ⟨?_, ?_, ?_, ?_, ?_, ?_, ?_⟩
    · rw [hk 0, if_neg (by omega)]; exact hI.k0
    · rw [hk 1, if_neg (by omega)]; exact hI.k1
    · rw [hlen']; omega
    · intro i hi
      rw [hk i] at hi
      by_cases hin : i = st.arena.length
      · rw [if_pos hin] at hi
        exact absurd hi hk_ne_term
      · rw [if_neg hin] at hi
        have hiu : i ≠ u := by
          intro h
          rw [h] at hi
          exact hku_ne_term hi
        rw [hn i, if_neg hin, if_neg hiu]
        exact hI.term_next i hi
    · intro i j hj
      rw [hn i] at hj
      rw [hlen']
      by_cases hin : i = st.arena.length
      · rw [if_pos hin] at hj
        cases hj
      · rw [if_neg hin] at hj
        by_cases hiu : i = u
        · rw [if_pos hiu] at hj
          rcases List.mem_append.1 hj with hjl | hje
          · have := hI.valid u j hjl
            omega
          · have : j = st.arena.length := by simpa using hje
            omega
        · rw [if_neg hiu] at hj
          have := hI.valid i j hj
          omega
    · intro i j hai hj
      rw [hk i] at hai
      rw [hn i] at hj
      by_cases hin : i = st.arena.length
      · rw [if_pos hin] at hj
        cases hj
      · rw [if_neg hin] at hai hj
        by_cases hiu : i = u
        · rw [if_pos hiu] at hj
          rcases List.mem_append.1 hj with hjl | hje
          · have hjlt := hI.valid u j hjl
            rw [hk j, if_neg (by omega)]
            exact hI.atom_next i j hai (by rw [hiu]; exact hjl)
          · have hje' : j = st.arena.length := by simpa using hje
            rw [hje', hk _, if_pos rfl]
            exact is_star_of_atom hka
        · rw [if_neg hiu] at hj
          have hjlt := hI.valid i j hj
          rw [hk j, if_neg (by omega)]
          exact hI.atom_next i j hai hj
    · intro i t' j hsi hj
      rw [hk i] at hsi
      rw [hn i] at hj
      by_cases hin : i = st.arena.length
      · rw [if_pos hin] at hsi
        exact absurd hsi (hk_ne_star t')
      · rw [if_neg hin] at hsi
        rw [if_neg hin] at hj
        by_cases hiu : i = u
        · rw [if_pos hiu] at hj
          rcases List.mem_append.1 hj with hjl | hje
          · have hjlt := hI.valid u j hjl
            rcases hI.star_next i t' j hsi (by rw [hiu]; exact hjl) with rfl | hA | hT | ⟨hS, hlt⟩
            · exact .inl rfl
            · exact .inr (.inl (by rw [hk j, if_neg (by omega)]; exact hA))
            · exact .inr (.inr (.inl (by rw [hk j, if_neg (by omega)]; exact hT)))
            · exact .inr (.inr (.inr ⟨by rw [hk j, if_neg (by omega)]; exact hS, hlt⟩))
          · have hje' : j = st.arena.length := by simpa using hje
            refine .inr (.inl ?_)
            rw [hje', hk _, if_pos rfl]
            exact hka
        · rw [if_neg hiu] at hj
          have hjlt := hI.valid i j hj
          rcases hI.star_next i t' j hsi hj with rfl | hA | hT | ⟨hS, hlt⟩
          · exact .inl rfl
          · exact .inr (.inl (by rw [hk j, if_neg (by omega)]; exact hA))
          · exact .inr (.inr (.inl (by rw [hk j, if_neg (by omega)]; exact hT)))
          · exact .inr (.inr (.inr ⟨by rw [hk j, if_neg (by omega)]; exact hS, hlt⟩))
  refine ⟨hInv, ?_⟩
  intro v hv
  have hv' : v = st.arena.length := by simpa using hv.symm
  subst hv'
  refine ⟨by omega, by rw [hlen']; omega, .inl ?_⟩
  rw [hk _, if_pos rfl]
  exact hka

theorem init_next_state_is_atom (c : Char) (k : StateKind)
    (h : init_next_state c = .ok k) : is_atom k = true := by
  unfold init_next_state at h
  split at h
  · obtain rfl := Except.ok.inj h
    rfl
  · split at h
    · obtain rfl := Except.ok.inj h
      rfl
    · cases h

theorem cinv_compile_step (st : CompSt) (c : Char) (st' : CompSt)
    (hc : CInv st) (h : compile_step st c = .ok st') : CInv st' := by
  unfold compile_step at h
  split at h
  · cases htmp : st.tmp_next_state with
    | none => rw [htmp] at h; cases h
    | some t =>
      rw [htmp] at h
      simp only [Except.ok.injEq] at h
      subst h
      exact cinv_star_step st t hc htmp
  · split at h
    · cases htmp : st.tmp_next_state with
      | none => rw [htmp] at h; cases h
      | some t =>
        rw [htmp] at h
        simp only [Except.ok.injEq] at h
        subst h
        exact cinv_plus_step st t hc htmp
    · split at h
      · cases h
      · rename_i k hinit
        cases htmp : st.tmp_next_state with
        | some t =>
          rw [htmp] at h
          simp only [Except.ok.injEq] at h
          subst h
          exact cinv_atom_step st t k hc (init_next_state_is_atom c k hinit)
            (.inr (hc.tmp t htmp))
        | none =>
          rw [htmp] at h
          simp only [Except.ok.injEq] at h
          subst h
          exact cinv_atom_step st 0 k hc (init_next_state_is_atom c k hinit)
            (.inl rfl)

theorem cinv_compile_loop (cs : List Char) :
    ∀ st : CompSt, CInv st → ∀ st', compile_loop st cs = .ok st' → CInv st' := by
  induction cs with
  | nil =>
    intro st hc st' h
    obtain rfl := Except.ok.inj h
    exact hc
  | cons c cs ih =>
    intro st hc st' h
    unfold compile_loop at h
    cases hstep : compile_step st c with
    | error e => rw [hstep] at h; cases h
    | ok st'' =>
      rw [hstep] at h
      exact ih st'' (cinv_compile_step st c st'' hc hstep) st' h

theorem invars_finalize (st : CompSt) (hc : CInv st) : Invars (finalize st) := by
  have hI := hc.inv
  have hlen2 := hI.len2
  -- both arms update index u (start, or the in-range tmp atom/star) by
  -- appending the terminal edge
  have key : ∀ u : Nat, u < st.arena.length →
      kindAt st.arena u ≠ .terminationState →
      Invars (upd_next st.arena u (fun l => l ++ [1])) := by
    intro u hult hu_ne_term
    have hk : ∀ j, kindAt (upd_next st.arena u (fun l => l ++ [1])) j =
        kindAt st.arena j := fun j => kindAt_upd_next _ _ _ _
    have hn : ∀ j, nextAt (upd_next st.arena u (fun l => l ++ [1])) j =
        if j = u then nextAt st.arena u ++ [1] else nextAt st.arena j := by
      intro j
      by_cases hj : j = u
      · rw [if_pos hj, hj, nextAt_upd_self _ _ _ hult]
      · rw [if_neg hj, nextAt_upd_ne _ _ _ _ (fun h => hj h.symm)]
    refine ⟨?_, ?_, ?_, ?_, ?_, ?_, ?_⟩
    · rw [hk 0]; exact hI.k0
    · rw [hk 1]; exact hI.k1
    · rw [length_upd_next]; omega
    · intro i hi
      rw [hk i] at hi
      have hiu : i ≠ u := by
        intro h
        rw [h] at hi
        exact hu_ne_term hi
      rw [hn i, if_neg hiu]
      exact hI.term_next i hi
    · intro i j hj
      rw [hn i] at hj
      rw [length_upd_next]
      by_cases hiu : i = u
      · rw [if_pos hiu] at hj
        rcases List.mem_append.1 hj with hjl | hje
        · exact hI.valid u j hjl
        · have : j = 1 := by simpa using hje
          omega
      · rw [if_neg hiu] at hj
        exact hI.valid i j hj
    · intro i j hai hj
      rw [hk i] at hai
      rw [hn i] at hj
      rw [hk j]
      by_cases hiu : i = u
      · rw [if_pos hiu] at hj
        rcases List.mem_append.1 hj with hjl | hje
        · exact hI.atom_next i j hai (by rw [hiu]; exact hjl)
        · have : j = 1 := by simpa using hje
          rw [this, hI.k1]
          rfl
      · rw [if_neg hiu] at hj
        exact hI.atom_next i j hai hj
    · intro i t' j hsi hj
      rw [hk i] at hsi
      rw [hn i] at hj
      by_cases hiu : i = u
      · rw [if_pos hiu] at hj
        rcases List.mem_append.1 hj with hjl | hje
        · rcases hI.star_next i t' j hsi (by rw [hiu]; exact hjl) with rfl | hA | hT | ⟨hS, hlt⟩
          · exact .inl rfl
          · exact .inr (.inl (by rw [hk j]; exact hA))
          · exact .inr (.inr (.inl (by rw [hk j]; exact hT)))
          · exact .inr (.inr (.inr ⟨by rw [hk j]; exact hS, hlt⟩))
        · have : j = 1 := by simpa using hje
          exact .inr (.inr (.inl (by rw [this, hk 1]; exact hI.k1)))
      · rw [if_neg hiu] at hj
        rcases hI.star_next i t' j hsi hj with rfl | hA | hT | ⟨hS, hlt⟩
        · exact .inl rfl
        · exact .inr (.inl (by rw [hk j]; exact hA))
        · exact .inr (.inr (.inl (by rw [hk j]; exact hT)))
        · exact .inr (.inr (.inr ⟨by rw [hk j]; exact hS, hlt⟩))
  unfold finalize
  cases htmp : st.tmp_next_state with
  | some t =>
    obtain ⟨ht2, htlt, htkind⟩ := hc.tmp t htmp
    refine key t htlt ?_
    intro h
    rw [h] at htkind
    rcases htkind with hA | hS
    · cases hA
    · cases hS
  | none =>
    refine key 0 (by omega) ?_
    rw [hI.k0]
    intro h
    cases h

/-- Every successfully compiled automaton satisfies the structural
invariants. -/
theorem compile_invars (p : List Char) (A : RegexFSM) (hc : compile p = .ok A) :
    Invars A := by
  unfold compile at hc
  cases hloop : compile_loop init_comp_st p with
  | error e => rw [hloop] at hc; cases hc
  | ok st =>
    rw [hloop] at hc
    obtain rfl := Except.ok.inj hc
    exact invars_finalize st (cinv_compile_loop p init_comp_st cinv_init st hloop)

/-- Rank of a state for the epsilon-descent argument: stars are ranked by
creation index, atoms and the terminal state are rank 0, and the start and
plus states (which are never epsilon targets) get the largest rank. -/
def state_rank (a : RegexFSM) (i : Nat) : Nat :=
  match kindAt a i with
  | .starState _ => i + 1
  | .startState => a.length + 1
  | .plusState _ => a.length + 1
  | _ => 0

theorem kindAt_lt_of_ne_term (a : RegexFSM) (i : Nat)
    (h : kindAt a i ≠ .terminationState) : i < a.length := by
  by_contra h'
  exact h (by rw [kindAt, stateAt_oor _ _ (by omega)])

theorem state_rank_le (a : RegexFSM) (i : Nat) :
    state_rank a i ≤ a.length + 1 := by
  unfold state_rank
  split
  · rename_i heq
    have : i < a.length := kindAt_lt_of_ne_term a i (by rw [heq]; intro h; cases h)
    omega
  · omega
  · omega
  · omega

/-- The epsilon moves of the matcher strictly decrease the rank: if `n` is
a star successor of `X` and `s'` is a successor of `n` other than `n`
itself, then `s'` ranks strictly below `X`. -/
theorem eps_rank_lt (a : RegexFSM) (hI : Invars a) (X n s' : Nat)
    (hn : n ∈ nextAt a X) (hstar : is_star (kindAt a n) = true)
    (hs : s' ∈ nextAt a n) (hne : s' ≠ n) :
    state_rank a s' < state_rank a X := by
  obtain ⟨t, ht⟩ : ∃ t, kindAt a n = .starState t := by
    cases hk : kindAt a n <;> rw [hk] at hstar <;>
      first | exact ⟨_, rfl⟩ | cases hstar
  have hcases := hI.star_next n t s' ht hs
  have hsrank : state_rank a s' = 0 ∨
      (state_rank a s' = s' + 1 ∧ s' < n) := by
    rcases hcases with rfl | hA | hT | ⟨hS, hlt⟩
    · exact absurd rfl hne
    · left
      unfold state_rank
      cases hk : kindAt a s' <;> rw [hk] at hA <;> first | rfl | cases hA
    · left
      unfold state_rank
      rw [hT]
    · right
      refine ⟨?_, hlt⟩
      unfold state_rank
      cases hk : kindAt a s' <;> rw [hk] at hS <;> first | rfl | cases hS
  have hnlt : n < a.length := hI.valid X n hn
  cases hX : kindAt a X with
  | startState =>
    have hrX : state_rank a X = a.length + 1 := by unfold state_rank; rw [hX]
    rw [hrX]
    rcases hsrank with h0 | ⟨hr, hlt⟩ <;> omega
  | plusState u =>
    have hrX : state_rank a X = a.length + 1 := by unfold state_rank; rw [hX]
    rw [hrX]
    rcases hsrank with h0 | ⟨hr, hlt⟩ <;> omega
  | terminationState =>
    rw [hI.term_next X hX] at hn
    cases hn
  | dotState =>
    have := hI.atom_next X n (by rw [hX]; rfl) hn
    rw [hstar] at this
    cases this
  | asciiState c =>
    have := hI.atom_next X n (by rw [hX]; rfl) hn
    rw [hstar] at this
    cases this
  | starState u =>
    have hrX : state_rank a X = X + 1 := by unfold state_rank; rw [hX]
    have hXn := hI.star_next X u n hX hn
    have hnX : n ≤ X := by
      rcases hXn with rfl | hA | hT | ⟨_, hlt⟩
      · omega
      · rw [is_star_of_atom hA] at hstar; cases hstar
      · rw [hT] at ht; cases ht
      · omega
    rw [hrX]
    rcases hsrank with h0 | ⟨hr, hlt⟩ <;> omega

/-- Total number of edges in the arena. -/
def edge_total (a : RegexFSM) : Nat :=
  (a.map (fun d => d.next_states.length)).sum

/-- Base of the weight function: strictly more than the number of pairs any
single loop step can enqueue. -/
def big_base (a : RegexFSM) : Nat :=
  edge_total a * (edge_total a + 1) + 2

/-- Weight of one worklist pair; remaining input dominates, then rank. -/
def pair_weight (a : RegexFSM) (len : Nat) (q : Nat × Nat) : Nat :=
  big_base a ^ ((len - q.2) * (a.length + 3) + state_rank a q.1)

/-- Total weight of a worklist. -/
def wl_measure (a : RegexFSM) (len : Nat) (wl : List (Nat × Nat)) : Nat :=
  (wl.map (pair_weight a len)).sum

theorem nextAt_len_le (a : RegexFSM) (i : Nat) :
    (nextAt a i).length ≤ edge_total a := by
  by_cases hi : i < a.length
  · have hmem : stateAt a i ∈ a := by
      rw [stateAt, List.getD_eq_getElem _ _ hi]
      exact List.getElem_mem hi
    have hmm : (stateAt a i).next_states.length ∈
        a.map (fun d => d.next_states.length) :=
      List.mem_map_of_mem _ hmem
    exact List.single_le_sum (fun x _ => Nat.zero_le x) _ hmm
  · rw [nextAt, stateAt_oor _ _ (by omega)]
    exact Nat.zero_le _

theorem concat_map_length_le (f : Nat → List (Nat × Nat)) (B : Nat) :
    ∀ l : List Nat, (∀ n ∈ l, (f n).length ≤ B) →
      (concat_map f l).length ≤ l.length * B := by
  intro l
  induction l with
  | nil => intro _; simp [concat_map]
  | cons n ns ih =>
    intro h
    rw [concat_map, List.length_append]
    have h1 := h n (List.mem_cons_self _ _)
    have h2 := ih (fun m hm => h m (List.mem_cons_of_mem _ hm))
    rw [List.length_cons]
    calc (f n).length + (concat_map f ns).length ≤ B + ns.length * B := by omega
    _ = (ns.length + 1) * B := by ring

theorem step_adds_length_le (a : RegexFSM) (c : Char) (st pos : Nat) :
    (step_adds a c st pos).length ≤ edge_total a * (edge_total a + 1) := by
  unfold step_adds
  have hB : ∀ n ∈ nextAt a st,
      ((if check_self a n c then [(n, pos + 1)] else []) ++
        (if is_star (kindAt a n) then eps_targets a n pos else [])).length ≤
        edge_total a + 1 := by
    intro n _
    rw [List.length_append]
    have h1 : (if check_self a n c then [(n, pos + 1)] else []).length ≤ 1 := by
      split <;> simp
    have h2 : (if is_star (kindAt a n) then eps_targets a n pos else []).length ≤
        edge_total a := by
      split
      · unfold eps_targets
        rw [List.length_map]
        exact le_trans (List.length_filter_le _ _) (nextAt_len_le a n)
      · simp
    omega
  calc (concat_map _ (nextAt a st)).length ≤ (nextAt a st).length * (edge_total a + 1) :=
        concat_map_length_le _ _ _ hB
  _ ≤ edge_total a * (edge_total a + 1) :=
        Nat.mul_le_mul_right _ (nextAt_len_le a st)

theorem mem_concat_map (f : Nat → List (Nat × Nat)) (x : Nat × Nat) :
    ∀ l : List Nat, x ∈ concat_map f l ↔ ∃ n ∈ l, x ∈ f n := by
  intro l
  induction l with
  | nil => simp [concat_map]
  | cons n ns ih =>
    rw [concat_map, List.mem_append, ih]
    constructor
    · rintro (hx | ⟨m, hm, hx⟩)
      · exact ⟨n, List.mem_cons_self _ _, hx⟩
      · exact ⟨m, List.mem_cons_of_mem _ hm, hx⟩
    · rintro ⟨m, hm, hx⟩
      rcases List.mem_cons.1 hm with rfl | hm
      · exact .inl hx
      · exact .inr ⟨m, hm, hx⟩

theorem step_adds_mem (a : RegexFSM) (c : Char) (st pos : Nat) (q : Nat × Nat)
    (hq : q ∈ step_adds a c st pos) :
    (∃ n ∈ nextAt a st, q = (n, pos + 1)) ∨
    (∃ n ∈ nextAt a st, is_star (kindAt a n) = true ∧
      q.1 ∈ nextAt a n ∧ q.1 ≠ n ∧ q.2 = pos) := by
  unfold step_adds at hq
  obtain ⟨n, hn, hx⟩ := (mem_concat_map _ _ _).1 hq
  rcases List.mem_append.1 hx with hx | hx
  · left
    refine ⟨n, hn, ?_⟩
    split at hx
    · simpa using hx
    · cases hx
  · right
    split at hx
    · rename_i hstar
      unfold eps_targets at hx
      obtain ⟨m, hm, rfl⟩ := List.mem_map.1 hx
      obtain ⟨hml, hmp⟩ := List.mem_filter.1 hm
      exact ⟨n, hn, hstar, hml, of_decide_eq_true hmp, rfl⟩
    · cases hx

theorem pair_weight_ge_one (a : RegexFSM) (len : Nat) (q : Nat × Nat) :
    1 ≤ pair_weight a len q :=
  Nat.one_le_pow _ _ (by unfold big_base; omega)

/-- The pairs enqueued while processing `(st, pos)` in mid-string weigh
strictly less, in total, than the processed pair itself. -/
theorem adds_measure_lt (a : RegexFSM) (hI : Invars a) (len : Nat) (c : Char)
    (st pos : Nat) (hpos : pos < len) :
    wl_measure a len (step_adds a c st pos) < pair_weight a len (st, pos) := by
  have hKpos : 0 < big_base a := by unfold big_base; omega
  have hK2 : 2 ≤ big_base a := by unfold big_base; omega
  have hD1 : 1 ≤ (len - pos) * (a.length + 3) + state_rank a st := by
    have : 1 ≤ len - pos := by omega
    nlinarith
  have hbound : ∀ q ∈ step_adds a c st pos, pair_weight a len q ≤
      big_base a ^ ((len - pos) * (a.length + 3) + state_rank a st - 1) := by
    intro q hq
    rcases step_adds_mem a c st pos q hq with ⟨n, hn, rfl⟩ | ⟨n, hn, hstar, hq1, hqne, hq2⟩
    · unfold pair_weight
      apply Nat.pow_le_pow_right (by omega)
      show (len - (pos + 1)) * (a.length + 3) + state_rank a n ≤
        (len - pos) * (a.length + 3) + state_rank a st - 1
      have hr := state_rank_le a n
      have hmul : (len - (pos + 1)) * (a.length + 3) + (a.length + 3) =
          (len - pos) * (a.length + 3) := by
        have h1 : len - pos = (len - (pos + 1)) + 1 := by omega
        rw [h1]
        ring
      omega
    · unfold pair_weight
      apply Nat.pow_le_pow_right (by omega)
      rw [hq2]
      have hrlt := eps_rank_lt a hI st n q.1 hn hstar hq1 hqne
      omega
  have hsum : wl_measure a len (step_adds a c st pos) ≤
      (step_adds a c st pos).length *
        big_base a ^ ((len - pos) * (a.length + 3) + state_rank a st - 1) := by
    unfold wl_measure
    have hle := List.sum_le_card_nsmul
      ((step_adds a c st pos).map (pair_weight a len))
      (big_base a ^ ((len - pos) * (a.length + 3) + state_rank a st - 1))
      (by
        intro x hx
        obtain ⟨q, hq, rfl⟩ := List.mem_map.1 hx
        exact hbound q hq)
    simpa [List.length_map, smul_eq_mul] using hle
  have hcount := step_adds_length_le a c st pos
  have hpow : big_base a ^ ((len - pos) * (a.length + 3) + state_rank a st) =
      big_base a * big_base a ^
        ((len - pos) * (a.length + 3) + state_rank a st - 1) := by
    conv_lhs => rw [show (len - pos) * (a.length + 3) + state_rank a st =
      ((len - pos) * (a.length + 3) + state_rank a st - 1) + 1 from by omega]
    rw [pow_succ]
    ring
  have hpw : pair_weight a len (st, pos) =
      big_base a ^ ((len - pos) * (a.length + 3) + state_rank a st) := rfl
  rw [hpw, hpow]
  have hpow1 : 1 ≤ big_base a ^
      ((len - pos) * (a.length + 3) + state_rank a st - 1) :=
    Nat.one_le_pow _ _ hKpos
  have hlt : (step_adds a c st pos).length < big_base a := by
    unfold big_base
    omega
  calc wl_measure a len (step_adds a c st pos)
      ≤ (step_adds a c st pos).length *
        big_base a ^ ((len - pos) * (a.length + 3) + state_rank a st - 1) := hsum
  _ < big_base a *
        big_base a ^ ((len - pos) * (a.length + 3) + state_rank a st - 1) :=
      Nat.mul_lt_mul_of_lt_of_le hlt (le_refl _) (by omega)

/-- The worklist loop finishes whenever the fuel exceeds the worklist's
total weight: the matcher terminates on every compiled automaton even
though it keeps no visited set. -/
theorem run_terminates (a : RegexFSM) (hI : Invars a) (s : List Char) :
    ∀ (fuel : Nat) (wl : List (Nat × Nat)),
      (∀ q ∈ wl, q.2 ≤ s.length) →
      wl_measure a s.length wl < fuel →
      (check_string_fuel a s wl fuel).isSome = true := by
  intro fuel
  induction fuel with
  | zero =>
    intro wl _ hm
    exact absurd hm (Nat.not_lt_zero _)
  | succ fuel ih =>
    intro wl hpos hm
    cases wl with
    | nil => rw [check_string_fuel]; rfl
    | cons q rest =>
      obtain ⟨st, pos⟩ := q
      have hw1 : 1 ≤ pair_weight a s.length (st, pos) := pair_weight_ge_one a _ _
      have hmsplit : wl_measure a s.length ((st, pos) :: rest) =
          pair_weight a s.length (st, pos) + wl_measure a s.length rest := by
        unfold wl_measure
        rw [List.map_cons, List.sum_cons]
      rw [check_string_fuel]
      by_cases hp : pos = s.length
      · rw [if_pos hp]
        by_cases hacc : at_end_accept a st = true
        · rw [if_pos hacc]; rfl
        · rw [if_neg hacc]
          exact ih rest (fun q hq => hpos q (List.mem_cons_of_mem _ hq)) (by omega)
      · rw [if_neg hp]
        have hplt : pos < s.length :=
          lt_of_le_of_ne (hpos (st, pos) (List.mem_cons_self _ _)) hp
        have hadds := adds_measure_lt a hI s.length (s.getD pos ' ') st pos hplt
        have happend : wl_measure a s.length
            (rest ++ step_adds a (s.getD pos ' ') st pos) =
            wl_measure a s.length rest +
              wl_measure a s.length (step_adds a (s.getD pos ' ') st pos) := by
          unfold wl_measure
          rw [List.map_append, List.sum_append]
        apply ih
        · intro q hq
          rcases List.mem_append.1 hq with hq | hq
          · exact hpos q (List.mem_cons_of_mem _ hq)
          · rcases step_adds_mem a _ st pos q hq with ⟨n, _, rfl⟩ | ⟨n, _, _, _, _, h2⟩
            · simpa using hplt
            · rw [h2]; omega
        · omega

/-- Claim C7: for every pattern that compiles and every input string, the
worklist simulation terminates with a boolean result, and that result is
unique (no error, no divergence), even though no visited set is kept. -/
theorem claim7_termination (p : List Char) (A : RegexFSM) (s : List Char)
    (h : compile p = .ok A) :
    (∃ b, check_string A s b) ∧
    ∀ b₁ b₂, check_string A s b₁ → check_string A s b₂ → b₁ = b₂ := by
  have hI := compile_invars p A h
  have hrun := run_terminates A hI s (wl_measure A s.length [(0, 0)] + 1) [(0, 0)]
    (by
      intro q hq
      have : q = (0, 0) := by simpa using hq
      rw [this]
      exact Nat.zero_le _)
    (by omega)
  obtain ⟨b, hb⟩ := Option.isSome_iff_exists.1 hrun
  exact ⟨⟨b, _, hb⟩, fun b₁ b₂ h1 h2 => check_string_unique A s b₁ b₂ h1 h2⟩

/-- Claim C7 witness: the compiled automaton of `ab*` on input `x`. -/
theorem claim7_witness :
    (∃ b, check_string fsm_ab_star ['x'] b) ∧
    ∀ b₁ b₂, check_string fsm_ab_star ['x'] b₁ →
      check_string fsm_ab_star ['x'] b₂ → b₁ = b₂ :=
  claim7_termination ['a', 'b', '*'] fsm_ab_star ['x'] rfl
